import Mathlib

/-!
Shallow embedding of the PLONK prover core of this repository
(constraint expression language `circuits/plonk-15-wires/src/expr.rs`,
the grand-product step of `dlog/plonk/src/prover.rs`, the `ft` blinding of
`dlog/plonk-15-wires/src/prover.rs`, and `circuits/marlin/src/domains.rs`),
together with proofs settling the specification's claims about it.

Rust `panic!`/out-of-bounds aborts and recoverable `Err` results are both
modelled with `Except RunError`, distinguishing the two classes.
-/

namespace PS

instance : Fact (Nat.Prime 5) := ⟨by norm_num⟩

instance : Fact (Nat.Prime 17) := ⟨by norm_num⟩

instance : Fact (Nat.Prime 19) := ⟨by norm_num⟩

instance {e a : Type} [DecidableEq e] [DecidableEq a] : DecidableEq (Except e a) := fun x y =>
  match x, y with
  | .ok u, .ok v => decidable_of_iff (u = v) (by simp)
  | .error u, .error v => decidable_of_iff (u = v) (by simp)
  | .ok _, .error _ => isFalse (by simp)
  | .error _, .ok _ => isFalse (by simp)

/-- Outcome of a fallible Rust computation: a `panic`/abort, or a
recoverable `Err(&str)` value. -/
inductive RunError where
  | panic (msg : String)
  | err (msg : String)
deriving DecidableEq

/-- `CurrOrNext` from `circuits/plonk-15-wires/src/gate.rs` (the file itself
is not part of the sources; the spec fixes the two rows Curr and Next with
Curr < Next). -/
inductive CurrOrNext where
  | Curr
  | Next
deriving DecidableEq

/-- Modelled from the spec: `GateType` lives in `gate.rs`, which is not
among the sources.  The spec names the gate families (GENERIC, PSDN, ADD,
DBL, ENDML, MUL); the claims only need a discrete ordered type of kinds. -/
inductive GateType where
  | Generic
  | Poseidon
  | CompleteAdd
  | Double
  | Endomul
  | Vbmul
deriving DecidableEq

/-- `Column` from `circuits/plonk-15-wires/src/expr.rs`. -/
inductive Column where
  | Witness (i : Nat)
  | Z
  | LookupSorted (i : Nat)
  | LookupAggreg
  | LookupTable
  | LookupKindIndex (i : Nat)
  | Index (t : GateType)
deriving DecidableEq

/-- `Variable` from `expr.rs`: a column together with a row. -/
structure Variable where
  col : Column
  row : CurrOrNext
deriving DecidableEq

/-- The symbolic constraint expression tree `Expr<F>` from `expr.rs`. -/
inductive Expr (F : Type) where
  | Alpha (power : Nat)
  | Gamma
  | Beta
  | JointCombiner (power : Nat)
  | Constant (x : F)
  | Cell (v : Variable)
  | Mul (a b : Expr F)
  | Add (a b : Expr F)
  | Sub (a b : Expr F)
  | ZkPolynomial
  | UnnormalizedLagrangeBasis (i : Nat)
deriving DecidableEq

variable {F : Type} [Field F] [DecidableEq F]

/-- `impl Add for Expr` (`expr.rs`): peephole `0 + x = x`, `x + 0 = x`,
otherwise an `Add` node. -/
def exprAdd (a b : Expr F) : Expr F :=
  match a with
  | .Constant x =>
    if x = 0 then b
    else
      match b with
      | .Constant y => if y = 0 then a else .Add a b
      | _ => .Add a b
  | _ =>
    match b with
    | .Constant y => if y = 0 then a else .Add a b
    | _ => .Add a b

/-- `impl Mul for Expr` (`expr.rs`): peephole `1 * x = x`, `x * 1 = x`,
otherwise a `Mul` node. -/
def exprMul (a b : Expr F) : Expr F :=
  match a with
  | .Constant x =>
    if x = 1 then b
    else
      match b with
      | .Constant y => if y = 1 then a else .Mul a b
      | _ => .Mul a b
  | _ =>
    match b with
    | .Constant y => if y = 1 then a else .Mul a b
    | _ => .Mul a b

/-- `impl Sub for Expr` (`expr.rs`): always a `Sub` node. -/
def exprSub (a b : Expr F) : Expr F :=
  .Sub a b

/-! ## Mixed-domain evaluation arithmetic (`EvalResult`, expr.rs) -/

/-- The `Domain` size tag from `expr.rs` with numeric values 1, 4, 8. -/
inductive Domain where
  | D1
  | D4
  | D8
deriving DecidableEq

/-- The numeric value of a domain tag (`Domain as usize`). -/
def Domain.size : Domain → Nat
  | .D1 => 1
  | .D4 => 4
  | .D8 => 8

/-- A radix-2 evaluation domain (`Radix2EvaluationDomain` of the external
FFT layer): its size and its group generator, the only data the core
reads. -/
structure RD (F : Type) where
  size : Nat
  group_gen : F
deriving DecidableEq

/-- Modelled from the spec: the 15-wire `EvaluationDomains` bundle
(`circuits/plonk-15-wires/src/domains.rs` is not among the sources); the
spec's §3 domain-tag model needs exactly the three nested domains `d1`,
`d4`, `d8`. -/
structure EvaluationDomains15 (F : Type) where
  d1 : RD F
  d4 : RD F
  d8 : RD F
deriving DecidableEq

/-- Reading `v[i]` in Rust: the value, or an index-out-of-bounds panic. -/
def vecRead (v : List F) (i : Nat) : Except RunError F :=
  match v.get? i with
  | some y => .ok y
  | none => .error (.panic "index out of bounds")

/-- Writing `v[i] = x` in Rust: the updated vector, or a panic. -/
def vecWrite (v : List F) (i : Nat) (x : F) : Except RunError (List F) :=
  if i < v.length then .ok (v.set i x) else .error (.panic "index out of bounds")

/-- `pows(x, n)` from `expr.rs`, intended (per its comment) to return
`x^0, ..., x^{n-1}`.  The Rust body allocates `vec![one, x]` (length 2) and
then writes `v[i]` for `i in 2..n`, which is out of bounds as soon as
`n ≥ 3`; the write is modelled with `vecWrite`. -/
def pows (x : F) (n : Nat) : Except RunError (List F) :=
  if n = 0 then .ok [1]
  else if n = 1 then .ok [1, x]
  else
    (List.range (n - 2)).foldlM
      (fun v k => do
        let prev ← vecRead v (k + 1)
        vecWrite v (k + 2) (prev * x))
      [1, x]

/-- The `Environment` from `expr.rs`.  Borrowed evaluation vectors become
the vectors themselves; the `[_; COLUMNS]` array and the `Vec`s indexed by
the expression are modelled as total functions from indices (the claims
never index them out of bounds); `HashMap<GateType, _>` becomes a function
into `Option`. -/
structure Environment (F : Type) where
  witness : Nat → List F
  zk_polynomial : List F
  z : List F
  lookup_sorted : Nat → List F
  lookup_aggreg : List F
  alpha : F
  beta : F
  gamma : F
  joint_combiner : F
  domain : EvaluationDomains15 F
  index : GateType → Option (List F)
  lookup_selectors : Nat → List F
  lookup_table : List F
  l0_1 : F

/-- `get_domain` from `expr.rs`. -/
def get_domain (d : Domain) (env : Environment F) : RD F :=
  match d with
  | .D1 => env.domain.d1
  | .D4 => env.domain.d4
  | .D8 => env.domain.d8

/-- `l0_1(d)` from `expr.rs`: `∏_{j=1}^{n-1} (1 - ω^j)`, written as the
source's loop over `1..n` with the running power folded along. -/
def l0_1 (d : RD F) : F :=
  ((List.range (d.size - 1)).foldl
    (fun (p : F × F) _ => (p.1 * (1 - p.2), p.2 * d.group_gen))
    (1, d.group_gen)).1

/-- `batch_inversion` of the external field layer (spec §6): each nonzero
entry is replaced by its inverse, zeros pass through — which is exactly
Lean's `·⁻¹` on a field, where `0⁻¹ = 0`. -/
def batch_inversion (v : List F) : List F :=
  v.map (·⁻¹)

/-- `unnormalized_lagrange_evals(l0_1, i, res_domain, env)` from `expr.rs`,
with every Rust vector read/write carried through `Except` (the `assert!`
and the out-of-bounds writes of `pows` are panics). -/
def unnormalized_lagrange_evals (l01 : F) (i : Nat) (res_domain : Domain)
    (env : Environment F) : Except RunError (List F) := do
  let k : Nat :=
    match res_domain with
    | .D1 => 1
    | .D4 => 4
    | .D8 => 8
  let rd := get_domain res_domain env
  let dd1 := env.domain.d1
  let n := dd1.size
  if ¬ i < n then throw (.panic "assertion failed: ii < n")
  let omega := dd1.group_gen
  let omega_i := omega ^ i
  let omega_minus_i := omega ^ (n - i)
  let omega_k_n_pows ← pows (rd.group_gen ^ n) k
  let omega_k_pows ← pows rd.group_gen k
  let v0 := List.replicate (k * n) (1 : F)
  let v ← (List.range n).foldlM
    (fun v q =>
      (List.range (k - 1)).foldlM
        (fun v r1 => do
          let p ← vecRead omega_k_pows (r1 + 1)
          vecWrite v (k * q + (r1 + 1)) (omega ^ q * p - omega_i))
        v)
    v0
  let v := batch_inversion v
  let v ← vecWrite v (k * i) (omega_minus_i * l01)
  let v ← (List.range (n - 1)).foldlM
    (fun v q1 => vecWrite v (k * (q1 + 1)) 0) v
  let v ← (List.range n).foldlM
    (fun v q =>
      (List.range (k - 1)).foldlM
        (fun v r1 => do
          let p ← vecRead omega_k_n_pows (r1 + 1)
          let cur ← vecRead v (k * q + (r1 + 1))
          vecWrite v (k * q + (r1 + 1)) (cur * (p - 1)))
        v)
    v
  return v

/-- The `EvalResult` union from `expr.rs`; the borrowed `SubEvals`
reference is inlined as its vector. -/
inductive EvalResult (F : Type) where
  | Constant (x : F)
  | Evals (domain : Domain) (evals : List F)
  | SubEvals (domain : Domain) (shift : Nat) (evals : List F)
deriving DecidableEq

/-- `EvalResult::init_` from `expr.rs`, lifted over fallible reads. -/
def EvalResult.init_ (res_domain : Domain × RD F)
    (g : Nat → Except RunError F) : Except RunError (List F) :=
  (List.range res_domain.2.size).mapM g

/-- `EvalResult::init` from `expr.rs`. -/
def EvalResult.init (res_domain : Domain × RD F)
    (g : Nat → Except RunError F) : Except RunError (EvalResult F) := do
  return .Evals res_domain.1 (← EvalResult.init_ res_domain g)

/-- `EvalResult::add` from `expr.rs`, arm by arm. -/
def EvalResult.add (a b : EvalResult F) (res_domain : Domain × RD F) :
    Except RunError (EvalResult F) :=
  match a, b with
  | .Constant x, .Constant y => .ok (.Constant (x + y))
  | .Evals d es, .Constant x | .Constant x, .Evals d es =>
    .ok (.Evals d (es.map (· + x)))
  | .SubEvals d s es, .Constant x | .Constant x, .SubEvals d s es => do
    let n := res_domain.2.size
    let scale := d.size / res_domain.1.size
    let v ← (List.range (n - 1)).mapM (fun i => do
      let e ← vecRead es (scale * i + s)
      pure (x + e))
    let elast ← vecRead es ((scale * (n - 1) + s) % es.length)
    .ok (.Evals res_domain.1 (v ++ [x + elast]))
  | .Evals da esa, .Evals db esb =>
    if da = db ∧ esa.length = esb.length then
      .ok (.Evals da (List.zipWith (· + ·) esa esb))
    else .error (.panic "assertion failed: d1 == d2")
  | .SubEvals d_sub s es_sub, .Evals d es | .Evals d es, .SubEvals d_sub s es_sub => do
    let scale := d_sub.size / d.size
    let n := es.length
    let v ← (List.range (n - 1)).mapM (fun i => do
      let e0 ← vecRead es i
      let e1 ← vecRead es_sub (scale * i + s)
      pure (e0 + e1))
    let l0 ← vecRead es (n - 1)
    let l1 ← vecRead es_sub ((scale * (n - 1) + s) % es_sub.length)
    .ok (.Evals d (v ++ [l0 + l1]))
  | .SubEvals da sa esa, .SubEvals db sb esb => do
    let scale1 := da.size / res_domain.1.size
    let scale2 := db.size / res_domain.1.size
    let n := res_domain.2.size
    let v ← (List.range (n - 1)).mapM (fun i => do
      let x ← vecRead esa (scale1 * i + sa)
      let y ← vecRead esb (scale2 * i + sb)
      pure (x + y))
    let x ← vecRead esa ((scale1 * (n - 1) + sa) % esa.length)
    let y ← vecRead esb ((scale2 * (n - 1) + sb) % esb.length)
    .ok (.Evals res_domain.1 (v ++ [x + y]))

/-- `EvalResult::sub` from `expr.rs`, arm by arm; note that the
`SubEvals ⊗ Constant` and `SubEvals ⊗ SubEvals` arms go through `init`
(reducing every index), while the `SubEvals ⊗ Evals` arms reduce only the
last index. -/
def EvalResult.sub (a b : EvalResult F) (res_domain : Domain × RD F) :
    Except RunError (EvalResult F) :=
  match a, b with
  | .Constant x, .Constant y => .ok (.Constant (x - y))
  | .Evals d es, .Constant x => .ok (.Evals d (es.map (· - x)))
  | .Constant x, .Evals d es => .ok (.Evals d (es.map (x - ·)))
  | .SubEvals d s es, .Constant x =>
    EvalResult.init res_domain (fun i => do
      let e ← vecRead es ((d.size / res_domain.1.size * i + s) % es.length)
      pure (e - x))
  | .Constant x, .SubEvals d s es =>
    EvalResult.init res_domain (fun i => do
      let e ← vecRead es ((d.size / res_domain.1.size * i + s) % es.length)
      pure (x - e))
  | .Evals da esa, .Evals db esb =>
    if da = db ∧ esa.length = esb.length then
      .ok (.Evals da (List.zipWith (· - ·) esa esb))
    else .error (.panic "assertion failed: d1 == d2")
  | .SubEvals d_sub s es_sub, .Evals d es => do
    let scale := d_sub.size / d.size
    let n := es.length
    let v ← (List.range (n - 1)).mapM (fun i => do
      let e0 ← vecRead es i
      let e1 ← vecRead es_sub (scale * i + s)
      pure (e1 - e0))
    let l0 ← vecRead es (n - 1)
    let l1 ← vecRead es_sub ((scale * (n - 1) + s) % es_sub.length)
    .ok (.Evals d (v ++ [l1 - l0]))
  | .Evals d es, .SubEvals d_sub s es_sub => do
    let scale := d_sub.size / d.size
    let n := es.length
    let v ← (List.range (n - 1)).mapM (fun i => do
      let e0 ← vecRead es i
      let e1 ← vecRead es_sub (scale * i + s)
      pure (e0 - e1))
    let l0 ← vecRead es (n - 1)
    let l1 ← vecRead es_sub ((scale * (n - 1) + s) % es_sub.length)
    .ok (.Evals d (v ++ [l0 - l1]))
  | .SubEvals da sa esa, .SubEvals db sb esb =>
    EvalResult.init res_domain (fun i => do
      let x ← vecRead esa ((da.size / res_domain.1.size * i + sa) % esa.length)
      let y ← vecRead esb ((db.size / res_domain.1.size * i + sb) % esb.length)
      pure (x - y))

/-- `EvalResult::mul` from `expr.rs`, arm by arm.  In the
`SubEvals ⊗ SubEvals` arm the source reduces the second operand's index
modulo `es1.evals.len()` — the FIRST operand's length — which is faithfully
reproduced here. -/
def EvalResult.mul (a b : EvalResult F) (res_domain : Domain × RD F) :
    Except RunError (EvalResult F) :=
  match a, b with
  | .Constant x, .Constant y => .ok (.Constant (x * y))
  | .Evals d es, .Constant x | .Constant x, .Evals d es =>
    .ok (.Evals d (es.map (· * x)))
  | .SubEvals d s es, .Constant x | .Constant x, .SubEvals d s es =>
    EvalResult.init res_domain (fun i => do
      let e ← vecRead es ((d.size / res_domain.1.size * i + s) % es.length)
      pure (x * e))
  | .Evals da esa, .Evals db esb =>
    if da = db ∧ esa.length = esb.length then
      .ok (.Evals da (List.zipWith (· * ·) esa esb))
    else .error (.panic "assertion failed: d1 == d2")
  | .SubEvals d_sub s es_sub, .Evals d es | .Evals d es, .SubEvals d_sub s es_sub => do
    let scale := d_sub.size / d.size
    let n := es.length
    let v ← (List.range (n - 1)).mapM (fun i => do
      let e0 ← vecRead es i
      let e1 ← vecRead es_sub (scale * i + s)
      pure (e0 * e1))
    let l0 ← vecRead es (n - 1)
    let l1 ← vecRead es_sub ((scale * (n - 1) + s) % es_sub.length)
    .ok (.Evals d (v ++ [l0 * l1]))
  | .SubEvals da sa esa, .SubEvals db sb esb =>
    EvalResult.init res_domain (fun i => do
      let x ← vecRead esa ((da.size / res_domain.1.size * i + sa) % esa.length)
      let y ← vecRead esb ((db.size / res_domain.1.size * i + sb) % esa.length)
      pure (x * y))


/-- A concrete nested domain bundle over `ZMod 17`: `3` has order 16, so
`d1 = ⟨2, 16⟩`, `d4 = ⟨8, 9⟩`, `d8 = ⟨16, 3⟩` with `9 = 3^2`, `16 = 3^8`. -/
def domains17 : EvaluationDomains15 (ZMod 17) :=
  ⟨⟨2, 16⟩, ⟨8, 9⟩, ⟨16, 3⟩⟩

/-- A concrete environment over `ZMod 17` used to evaluate the expression
machinery on explicit inputs. -/
def env17 : Environment (ZMod 17) where
  witness := fun _ => []
  zk_polynomial := []
  z := []
  lookup_sorted := fun _ => []
  lookup_aggreg := []
  alpha := 0
  beta := 0
  gamma := 0
  joint_combiner := 0
  domain := domains17
  index := fun _ => none
  lookup_selectors := fun _ => []
  lookup_table := []
  l0_1 := l0_1 (⟨2, 16⟩ : RD (ZMod 17))


/-! ## Scalar and domain evaluation of expressions (expr.rs) -/

/-- Modelled from the spec: `ProofEvaluations<F>` of
`nolookup/scalars.rs` (not among the sources).  Only the fields read by
`Expr::evaluate` appear; the per-column vectors indexed by the expression
are total functions (the claims never index out of bounds). -/
structure ProofEvaluations (F : Type) where
  w : Nat → F
  z : F
  lookup_sorted : Nat → F
  lookup_aggreg : F
  lookup_table : F

/-- Modelled from the spec: `RandomOracles` of `nolookup/scalars.rs`
(not among the sources); the spec's §3 lists the six challenges. -/
structure RandomOracles (F : Type) where
  alpha : F
  beta : F
  gamma : F
  zeta : F
  v : F
  u : F

/-- `curr_or_next` from `expr.rs`. -/
def curr_or_next : CurrOrNext → Nat
  | .Curr => 0
  | .Next => 1

/-- `Expr::evaluate` from `expr.rs`.  The external `eval_zk_polynomial`
(from `nolookup/constraints.rs`, not among the sources) is passed in as
`zkp`; `evals` is the `[ProofEvaluations; 2]` pair indexed by
`curr_or_next`; the field division of the `UnnormalizedLagrangeBasis` arm
panics when the denominator is zero (as `inverse().unwrap()` does). -/
def evaluate (zkp : RD F → F → F) (e : Expr F) (d : RD F) (pt : F)
    (oracles : RandomOracles F)
    (evals : ProofEvaluations F × ProofEvaluations F) : Except RunError F :=
  match e with
  | .Alpha power => .ok (oracles.alpha ^ power)
  | .Gamma => .ok oracles.gamma
  | .Beta => .ok oracles.beta
  | .JointCombiner _ => .error (.err "Joint lookup tables not yet implemented")
  | .Constant x => .ok x
  | .Mul x y => do
    let a ← evaluate zkp x d pt oracles evals
    let b ← evaluate zkp y d pt oracles evals
    .ok (a * b)
  | .Add x y => do
    let a ← evaluate zkp x d pt oracles evals
    let b ← evaluate zkp y d pt oracles evals
    .ok (a + b)
  | .Sub x y => do
    let a ← evaluate zkp x d pt oracles evals
    let b ← evaluate zkp y d pt oracles evals
    .ok (a - b)
  | .ZkPolynomial => .ok (zkp d pt)
  | .UnnormalizedLagrangeBasis i =>
    if pt - d.group_gen ^ i = 0 then .error (.panic "division by zero")
    else .ok ((pt ^ d.size - 1) / (pt - d.group_gen ^ i))
  | .Cell v =>
    let ev := match v.row with
      | .Curr => evals.1
      | .Next => evals.2
    match v.col with
    | .Witness i => .ok (ev.w i)
    | .Z => .ok ev.z
    | .LookupSorted i => .ok (ev.lookup_sorted i)
    | .LookupAggreg => .ok ev.lookup_aggreg
    | .LookupTable => .ok ev.lookup_table
    | .LookupKindIndex _ =>
      .error (.err "Cannot get index evaluation (should have been linearized away)")
    | .Index _ =>
      .error (.err "Cannot get index evaluation (should have been linearized away)")

/-- `Expr::degree` from `expr.rs`. -/
def Expr.degree : Expr F → Nat → Nat
  | .Constant _, _ => 0
  | .Alpha _, _ => 0
  | .Beta, _ => 0
  | .Gamma, _ => 0
  | .JointCombiner _, _ => 0
  | .ZkPolynomial, _ => 3
  | .UnnormalizedLagrangeBasis _, d1_size => d1_size
  | .Cell _, d1_size => d1_size
  | .Mul x y, d1_size => x.degree d1_size * y.degree d1_size
  | .Sub x y, d1_size => max (x.degree d1_size) (y.degree d1_size)
  | .Add x y, d1_size => max (x.degree d1_size) (y.degree d1_size)

/-- `Expr::evaluations_` from `expr.rs`, bottom-up over the `EvalResult`
algebra. -/
def evaluations_ (e : Expr F) (d : Domain) (env : Environment F) :
    Except RunError (EvalResult F) :=
  match e with
  | .ZkPolynomial => .ok (.SubEvals .D8 0 env.zk_polynomial)
  | .Constant x => .ok (.Constant x)
  | .Alpha power => .ok (.Constant (env.alpha ^ power))
  | .Beta => .ok (.Constant env.beta)
  | .Gamma => .ok (.Constant env.gamma)
  | .JointCombiner power => .ok (.Constant (env.joint_combiner ^ power))
  | .UnnormalizedLagrangeBasis i => do
    .ok (.Evals d (← unnormalized_lagrange_evals env.l0_1 i d env))
  | .Cell v =>
    match v.col with
    | .LookupKindIndex i =>
      .ok (.SubEvals .D8 (curr_or_next v.row) (env.lookup_selectors i))
    | .Witness i => .ok (.SubEvals .D8 (curr_or_next v.row) (env.witness i))
    | .Z => .ok (.SubEvals .D8 (curr_or_next v.row) env.z)
    | .LookupSorted i =>
      .ok (.SubEvals .D8 (curr_or_next v.row) (env.lookup_sorted i))
    | .LookupAggreg => .ok (.SubEvals .D8 (curr_or_next v.row) env.lookup_aggreg)
    | .LookupTable => .ok (.SubEvals .D8 (curr_or_next v.row) env.lookup_table)
    | .Index t =>
      match env.index t with
      | none => .ok (.Constant 0)
      | some ev => .ok (.SubEvals .D8 (curr_or_next v.row) ev)
  | .Mul e1 e2 => do
    EvalResult.mul (← evaluations_ e1 d env) (← evaluations_ e2 d env)
      (d, get_domain d env)
  | .Add e1 e2 => do
    EvalResult.add (← evaluations_ e1 d env) (← evaluations_ e2 d env)
      (d, get_domain d env)
  | .Sub e1 e2 => do
    EvalResult.sub (← evaluations_ e1 d env) (← evaluations_ e2 d env)
      (d, get_domain d env)

/-- The domain-choice `if` chain at the top of `Expr::evaluations`
(`expr.rs`): the smallest of D1/D4/D8 accommodating the degree estimate,
a panic beyond `8·|H|`. -/
def chooseDomain (deg d1_size : Nat) : Except RunError Domain :=
  if deg ≤ d1_size then .ok .D1
  else if deg ≤ 4 * d1_size then .ok .D4
  else if deg ≤ 8 * d1_size then .ok .D8
  else .error (.panic "constraint had degree > 8")

/-- `Expr::evaluations` from `expr.rs`: choose the domain from the degree
estimate, run `evaluations_`, and materialize the result as a vector over
the chosen domain (with the `assert_eq!(domain, d)` of the `Evals` arm). -/
def evaluations (e : Expr F) (env : Environment F) :
    Except RunError (List F) := do
  let d1_size := env.domain.d1.size
  let d ← chooseDomain (e.degree d1_size) d1_size
  match ← evaluations_ e d env with
  | .Evals domain evals =>
    if domain = d then .ok evals
    else .error (.panic "assertion failed: domain == d")
  | .Constant x => EvalResult.init_ (d, get_domain d env) (fun _ => .ok x)
  | .SubEvals d_sub s evals =>
    let scale := d_sub.size / d.size
    EvalResult.init_ (d, get_domain d env)
      (fun i => vecRead evals ((scale * i + s) % evals.length))


/-! ## Semantics and the domain-extension fragment -/

/-- The scalar-evaluable columns: those whose `Cell` arm in
`Expr::evaluate` reads the evaluations record rather than erroring. -/
def scalarCol : Column → Bool
  | .Witness _ => true
  | .Z => true
  | .LookupSorted _ => true
  | .LookupAggreg => true
  | .LookupTable => true
  | .LookupKindIndex _ => false
  | .Index _ => false

/-- The environment vector backing a column (the `Cell` arm of
`Expr::evaluations_`). -/
def colVec (env : Environment F) : Column → List F
  | .Witness i => env.witness i
  | .Z => env.z
  | .LookupSorted i => env.lookup_sorted i
  | .LookupAggreg => env.lookup_aggreg
  | .LookupTable => env.lookup_table
  | .LookupKindIndex i => env.lookup_selectors i
  | .Index _ => []

/-- The evaluations-record value of a column (the `Cell` arm of
`Expr::evaluate`); junk `0` for the index columns, on which `evaluate`
errors. -/
def recordVal (ev : ProofEvaluations F) : Column → F
  | .Witness i => ev.w i
  | .Z => ev.z
  | .LookupSorted i => ev.lookup_sorted i
  | .LookupAggreg => ev.lookup_aggreg
  | .LookupTable => ev.lookup_table
  | .LookupKindIndex _ => 0
  | .Index _ => 0

/-- The expression fragment of the amended domain-extension-consistency
claim: constants, the `α`/`β`/`γ` oracle leaves, the zk polynomial, and
Curr-row cells of scalar-evaluable columns, closed under `+`, `-`, `×`.
Excluded because scalar and domain evaluation genuinely disagree on them:
`JointCombiner` and index cells (scalar evaluation errors),
`UnnormalizedLagrangeBasis` (panics on D4/D8 and is wrong at its own
point), and Next-row cells (the `shift = 1` read lands on the next point
of the D8 source, not on the next row `ω·x`). -/
def goodExpr : Expr F → Bool
  | .Constant _ => true
  | .Alpha _ => true
  | .Beta => true
  | .Gamma => true
  | .JointCombiner _ => false
  | .ZkPolynomial => true
  | .UnnormalizedLagrangeBasis _ => false
  | .Cell v =>
    scalarCol v.col &&
      (match v.row with
       | .Curr => true
       | .Next => false)
  | .Mul a b => goodExpr a && goodExpr b
  | .Add a b => goodExpr a && goodExpr b
  | .Sub a b => goodExpr a && goodExpr b

/-- A total semantic valuation of expression leaves, used to state the
semantic theorems.  `cell` values the cells, `zk` the zk polynomial,
`ulb` the unnormalized Lagrange leaves. -/
structure SemCtx (F : Type) where
  alpha : F
  beta : F
  gamma : F
  jc : F
  cell : Variable → F
  zk : F
  ulb : Nat → F

/-- Total (mathematical) evaluation of an expression under a `SemCtx`;
agrees with `Expr::evaluate` wherever the latter returns `Ok` (see
`evaluate_ok_esem`). -/
def esem (c : SemCtx F) : Expr F → F
  | .Alpha p => c.alpha ^ p
  | .Beta => c.beta
  | .Gamma => c.gamma
  | .JointCombiner p => c.jc ^ p
  | .Constant x => x
  | .Cell v => c.cell v
  | .ZkPolynomial => c.zk
  | .UnnormalizedLagrangeBasis i => c.ulb i
  | .Add a b => esem c a + esem c b
  | .Sub a b => esem c a - esem c b
  | .Mul a b => esem c a * esem c b

/-- The per-point semantic context of the domain-extension claim: cells
take the column polynomial `P` at the point (Curr) or at its `ω`-shift
(Next), the zk leaf takes `zkf` at the point; oracles come from the
environment. -/
def ptCtx (env : Environment F) (P : Column → F → F) (zkf : F → F)
    (x : F) : SemCtx F where
  alpha := env.alpha
  beta := env.beta
  gamma := env.gamma
  jc := env.joint_combiner
  cell := fun v =>
    match v.row with
    | .Curr => P v.col x
    | .Next => P v.col (env.domain.d1.group_gen * x)
  zk := zkf x
  ulb := fun _ => 0

/-- The `j`-th point of the extended domain with tag `d`, expressed with
the D8 generator: `g8 ^ ((8/k)·j)`. -/
def ptOf (env : Environment F) (d : Domain) (j : Nat) : F :=
  env.domain.d8.group_gen ^ (8 / d.size * j)

/-- Consistency of an environment with the column polynomials `P`, the zk
scalar function `zkf` and the base size `n`: the three domains are nested
with sizes `n`, `4n`, `8n`, and every column vector holds the `D8`
evaluations of its polynomial. -/
structure EnvConsistent (env : Environment F) (P : Column → F → F)
    (zkf : F → F) (n : Nat) : Prop where
  hn : 0 < n
  d1_size : env.domain.d1.size = n
  d4_size : env.domain.d4.size = 4 * n
  d8_size : env.domain.d8.size = 8 * n
  d1_gen : env.domain.d1.group_gen = env.domain.d8.group_gen ^ 8
  d4_gen : env.domain.d4.group_gen = env.domain.d8.group_gen ^ 2
  col_len : ∀ c, scalarCol c = true → (colVec env c).length = 8 * n
  col_val : ∀ c, scalarCol c = true → ∀ m, m < 8 * n →
    (colVec env c).get? m = some (P c (env.domain.d8.group_gen ^ m))
  zk_len : env.zk_polynomial.length = 8 * n
  zk_val : ∀ m, m < 8 * n →
    env.zk_polynomial.get? m = some (zkf (env.domain.d8.group_gen ^ m))

/-- What it means for an `EvalResult` to hold the values `sem` over the
target domain `d` (of size `d.size * n`): constants hold them trivially,
owned vectors hold them directly, and `SubEvals` views hold them through
the stride-`8/k` shift-0 read. -/
def ValAt (d : Domain) (n : Nat) (sem : Nat → F) : EvalResult F → Prop
  | .Constant x => ∀ j, j < d.size * n → sem j = x
  | .Evals dom w => dom = d ∧ w.length = d.size * n ∧
      ∀ j, j < d.size * n → w.get? j = some (sem j)
  | .SubEvals dom s w => dom = .D8 ∧ s = 0 ∧ w.length = 8 * n ∧
      ∀ j, j < d.size * n → w.get? (8 / d.size * j) = some (sem j)

/-- A concrete `ProofEvaluations` record over `ZMod 17`. -/
def pe17 : ProofEvaluations (ZMod 17) :=
  ⟨fun _ => 0, 0, fun _ => 0, 0, 0⟩

/-- A concrete `RandomOracles` record over `ZMod 17`. -/
def or17 : RandomOracles (ZMod 17) :=
  ⟨0, 0, 0, 0, 0, 0⟩

/-- A concrete consistent environment over `ZMod 17` with `n = 2`: every
column vector (and the zk vector) holds the evaluations of the identity
polynomial over the 16-point `D8` domain generated by `3`. -/
def envC : Environment (ZMod 17) where
  witness := fun _ => (List.range 16).map (fun m => (3 : ZMod 17) ^ m)
  zk_polynomial := (List.range 16).map (fun m => (3 : ZMod 17) ^ m)
  z := (List.range 16).map (fun m => (3 : ZMod 17) ^ m)
  lookup_sorted := fun _ => (List.range 16).map (fun m => (3 : ZMod 17) ^ m)
  lookup_aggreg := (List.range 16).map (fun m => (3 : ZMod 17) ^ m)
  alpha := 0
  beta := 0
  gamma := 0
  joint_combiner := 0
  domain := domains17
  index := fun _ => none
  lookup_selectors := fun _ => (List.range 16).map (fun m => (3 : ZMod 17) ^ m)
  lookup_table := (List.range 16).map (fun m => (3 : ZMod 17) ^ m)
  l0_1 := 2

/-! ## Monomial expansion and linearization (expr.rs) -/

/-- Variant index of `Column`'s derived `Ord` (declaration order). -/
def colIdx : Column → Nat
  | .Witness _ => 0
  | .Z => 1
  | .LookupSorted _ => 2
  | .LookupAggreg => 3
  | .LookupTable => 4
  | .LookupKindIndex _ => 5
  | .Index _ => 6

/-- Modelled from the spec: the derived `Ord` of `GateType` (declaration
order of the gate families). -/
def gateIdx : GateType → Nat
  | .Generic => 0
  | .Poseidon => 1
  | .CompleteAdd => 2
  | .Double => 3
  | .Endomul => 4
  | .Vbmul => 5

/-- Payload of a `Column` under its derived `Ord`. -/
def colPayload : Column → Nat
  | .Witness i => i
  | .Z => 0
  | .LookupSorted i => i
  | .LookupAggreg => 0
  | .LookupTable => 0
  | .LookupKindIndex i => i
  | .Index t => gateIdx t

/-- `Curr < Next` (derived `Ord` of `CurrOrNext`). -/
def rowIdx : CurrOrNext → Nat
  | .Curr => 0
  | .Next => 1

/-- The derived lexicographic `Ord` of `Variable`: by column, then row. -/
def varLeB (a b : Variable) : Bool :=
  decide (colIdx a.col < colIdx b.col) ||
    (decide (colIdx a.col = colIdx b.col) &&
      (decide (colPayload a.col < colPayload b.col) ||
        (decide (colPayload a.col = colPayload b.col) &&
          decide (rowIdx a.row ≤ rowIdx b.row))))

/-- `varLeB` as a relation, for sorting. -/
def varLe (a b : Variable) : Prop := varLeB a b = true

instance : DecidableRel varLe := fun a b =>
  inferInstanceAs (Decidable (varLeB a b = true))

/-- `m.sort()` on a `Vec<Variable>`. -/
def sortVars (m : List Variable) : List Variable :=
  List.insertionSort varLe m

/-- The `res.entry(key).or_insert(0.into()); *v = f(v.clone(), c)` upsert
of `monomials` and `linearize`; the `HashMap` is modelled as an
association list with first-occurrence update and append for new keys. -/
def upsertWith {K : Type} [DecidableEq K] (key : K) (c : Expr F)
    (f : Expr F → Expr F → Expr F) :
    List (K × Expr F) → List (K × Expr F)
  | [] => [(key, f (.Constant 0) c)]
  | (k0, v0) :: rest =>
    if k0 = key then (k0, f v0 c) :: rest
    else (k0, v0) :: upsertWith key c f rest

/-- `Expr::monomials` from `expr.rs`: a map from sorted variable multisets
to coefficient expressions; hash-map iteration is modelled as insertion
order. -/
def monomials : Expr F → List (List Variable × Expr F)
  | .UnnormalizedLagrangeBasis i => [([], .UnnormalizedLagrangeBasis i)]
  | .ZkPolynomial => [([], .ZkPolynomial)]
  | .Alpha p => [([], .Alpha p)]
  | .Beta => [([], .Beta)]
  | .Gamma => [([], .Gamma)]
  | .JointCombiner p => [([], .JointCombiner p)]
  | .Constant x => [([], .Constant x)]
  | .Cell v => [([v], .Constant 1)]
  | .Add e1 e2 =>
    (monomials e2).foldl
      (fun res mc => upsertWith mc.1 mc.2 exprAdd res) (monomials e1)
  | .Sub e1 e2 =>
    (monomials e2).foldl
      (fun res mc => upsertWith mc.1 mc.2 exprSub res) (monomials e1)
  | .Mul e1 e2 =>
    (monomials e1).foldl
      (fun res mc1 =>
        (monomials e2).foldl
          (fun res mc2 =>
            upsertWith (sortVars (mc1.1 ++ mc2.1)) (exprMul mc1.2 mc2.2)
              exprAdd res) res) []

/-- `Linearization` from `expr.rs`. -/
structure Linearization (F : Type) where
  constant_term : Expr F
  index_terms : List (Column × Expr F)
deriving DecidableEq

/-- The body of the `for (m, c)` loop of `Expr::linearize`: partition the
variables by membership of their column in the evaluated set, multiply
the coefficient by the evaluated cells, then dispatch on the number of
unevaluated variables. -/
def linStep (evaluated : List Column)
    (st : Expr F × List (Column × Expr F))
    (mc : List Variable × Expr F) :
    Except RunError (Expr F × List (Column × Expr F)) :=
  let parts := mc.1.partition (fun v => evaluated.contains v.col)
  let c := parts.1.foldl (fun acc v => exprMul acc (.Cell v)) mc.2
  match parts.2 with
  | [] => .ok (exprAdd st.1 c, st.2)
  | v :: rest =>
    match rest with
    | [] =>
      match v.row with
      | .Next =>
        .error (.err "Linearization failed (needed polynomial value at \"next\" row)")
      | .Curr => .ok (st.1, upsertWith v.col c exprAdd st.2)
    | _ => .error (.err "Linearization failed")

/-- `Expr::linearize` run over a given iteration order `ms` of the
monomial map (Rust's `HashMap` iteration order is unspecified and differs
across processes). -/
def linearizeFrom (ms : List (List Variable × Expr F))
    (evaluated : List Column) : Except RunError (Linearization F) := do
  let st ← ms.foldlM (linStep evaluated) ((Expr.Constant 0 : Expr F), [])
  .ok ⟨st.1, st.2⟩

/-- `Expr::linearize` from `expr.rs`, with the model's insertion-order
iteration of the monomial map. -/
def linearize (e : Expr F) (evaluated : List Column) :
    Except RunError (Linearization F) :=
  linearizeFrom (monomials e) evaluated

/-- Product of the cell values of a variable multiset. -/
def cellProd (cell : Variable → F) (m : List Variable) : F :=
  (m.map cell).prod

/-- Semantic value of one monomial entry. -/
def mterm (ctx : SemCtx F) (mc : List Variable × Expr F) : F :=
  esem ctx mc.2 * cellProd ctx.cell mc.1

/-- Semantic value of a monomial map: the sum of its entries' values. -/
def msum (ctx : SemCtx F) (l : List (List Variable × Expr F)) : F :=
  (l.map (mterm ctx)).sum

/-- Semantic value of the `index_terms`: Σ coefficient · cell(col, Curr). -/
def colTermSum (ctx : SemCtx F) (l : List (Column × Expr F)) : F :=
  (l.map (fun p => esem ctx p.2 * ctx.cell ⟨p.1, .Curr⟩)).sum

/-- The semantic context read off `Expr::evaluate`'s parameters: cells
take the evaluations-record value, the zk leaf takes the external scalar,
Lagrange leaves take the quotient formula. -/
def ctxOf (zkp : RD F → F → F) (d : RD F) (pt : F)
    (oracles : RandomOracles F)
    (er : ProofEvaluations F × ProofEvaluations F) : SemCtx F where
  alpha := oracles.alpha
  beta := oracles.beta
  gamma := oracles.gamma
  jc := 0
  cell := fun v =>
    recordVal
      (match v.row with
       | .Curr => er.1
       | .Next => er.2) v.col
  zk := zkp d pt
  ulb := fun i => (pt ^ d.size - 1) / (pt - d.group_gen ^ i)

/-- The column contributed by a monomial to `index_terms`: the column of
its single unevaluated variable, if there is exactly one. -/
def qualCol (S : List Column) (mc : List Variable × Expr F) : Option Column :=
  match (mc.1.partition (fun v => S.contains v.col)).2 with
  | [v] => some v.col
  | _ => none

/-! ### The grand product of the plonk prover (`dlog/plonk/src/prover.rs`) -/

/-- Modelled from the spec: the error type `ProofError` of
`oracle::rndoracle` (outside the sources); §7 of the spec lists the
error classes returned by the provers. -/
inductive ProofError where
  | WitnessCsInconsistent
  | PolyDivision
  | ProofCreation
deriving DecidableEq

/-- The denominator factor of the grand-product recursion in
`ProverProof::create` (`dlog/plonk/src/prover.rs`, lines 115-122): the
product over the three wire columns of
`witness[j + col*n] + sigmal[col][j]*beta + gamma`. -/
def permDen (n : Nat) (witness : Nat → F) (sigmal : Fin 3 → Nat → F)
    (beta gamma : F) (j : Nat) : F :=
  (witness j + sigmal 0 j * beta + gamma) *
  (witness (j + n) + sigmal 1 j * beta + gamma) *
  (witness (j + 2 * n) + sigmal 2 j * beta + gamma)

/-- The numerator factor of the grand-product recursion
(`dlog/plonk/src/prover.rs`, lines 126-136): the product over the three
wire columns of `witness[j + col*n] + sid[j]*beta*{1,r,o} + gamma`. -/
def permNum (n : Nat) (witness : Nat → F) (sid : Nat → F)
    (r o beta gamma : F) (j : Nat) : F :=
  (witness j + sid j * beta + gamma) *
  (witness (j + n) + sid j * beta * r + gamma) *
  (witness (j + 2 * n) + sid j * beta * o + gamma)

/-- The grand-product vector of `ProverProof::create`
(`dlog/plonk/src/prover.rs`, lines 115-136): `z = vec![1; n+1]` with
entries `1..=n` filled with the denominator products, `batch_inversion`
applied in place to the slice `z[1..=n]`, then the sequential loop
`z[j+1] *= z[j] * numerator_j` for `j in 0..n`.  The witness (of length
`3n`) and the sigma tables are modelled as total functions; every index
touched by the loop is in bounds (`j + 1 ≤ n < n + 1`), so Rust's
indexing never panics here and `getD` never hits its default. -/
def permAggregZ (n : Nat) (witness : Nat → F) (sigmal : Fin 3 → Nat → F)
    (sid : Nat → F) (r o beta gamma : F) : List F :=
  let z1 : List F :=
    1 :: batch_inversion ((List.range n).map (permDen n witness sigmal beta gamma))
  (List.range n).foldl
    (fun z j =>
      z.set (j + 1) (z.getD (j + 1) 0 *
        (z.getD j 0 * permNum n witness sid r o beta gamma j)))
    z1

/-- The check `if z.pop().unwrap() != 1 {return Err(ProofError::ProofCreation)}`
of `ProverProof::create` (`dlog/plonk/src/prover.rs`, line 138): `none`
models the `unwrap` panic on an empty vector (unreachable, since the
vector has length `n + 1`); otherwise the popped vector continues to
interpolation iff the popped last entry equals 1. -/
def permAggregCheck (n : Nat) (witness : Nat → F) (sigmal : Fin 3 → Nat → F)
    (sid : Nat → F) (r o beta gamma : F) : Option (Except ProofError (List F)) :=
  let z := permAggregZ n witness sigmal sid r o beta gamma
  match z.getLast? with
  | none => none
  | some last => if last ≠ 1 then some (.error .ProofCreation) else some (.ok z.dropLast)

/-- The closed form of the sequential grand-product loop, used to state
its correctness: `zClosed 0 = 1` and
`zClosed (j+1) = (permDen j)⁻¹ * (zClosed j * permNum j)`. -/
def zClosed (n : Nat) (witness : Nat → F) (sigmal : Fin 3 → Nat → F)
    (sid : Nat → F) (r o beta gamma : F) : Nat → F
  | 0 => 1
  | j + 1 =>
    (permDen n witness sigmal beta gamma j)⁻¹ *
      (zClosed n witness sigmal sid r o beta gamma j *
        permNum n witness sid r o beta gamma j)

/-! ### Evaluation domain selection (`circuits/marlin/src/domains.rs`) -/

/-- Modelled from the spec: the doubling loop of Rust's
`next_power_of_two`, written with explicit fuel so that the kernel can
evaluate it; `nextPow2Go n fuel acc` doubles `acc` until it reaches
`n`. -/
def nextPow2Go (n : Nat) : Nat → Nat → Nat
  | 0, acc => acc
  | fuel + 1, acc => if n ≤ acc then acc else nextPow2Go n fuel (2 * acc)

/-- Modelled from the spec: Rust's `usize::next_power_of_two` — the
smallest power of two that is at least `max(n, 1)`. -/
def nextPow2 (n : Nat) : Nat := nextPow2Go n n 1

/-- Modelled from the spec (§6): `compute_size_of_domain(min_n)` of the
external FFT layer — the smallest power-of-two subgroup size at least
`min_n`, or `None` when the field has no multiplicative subgroup of
that size.  The field enters only through its two-adicity `A`: the
available power-of-two subgroup sizes are exactly those dividing `2^A`,
i.e. those at most `2^A`. -/
def compute_size_of_domain (A min_n : Nat) : Option Nat :=
  let size := nextPow2 min_n
  if size ≤ 2 ^ A then some size else none

/-- Modelled from the spec (§6): `EvaluationDomain::new(num_coeffs)`;
only the size of the constructed domain matters to the claims, so the
model returns it (the smallest power of two at least `num_coeffs`, if
the field admits a subgroup of that size). -/
def domainNew (A num_coeffs : Nat) : Option Nat :=
  let size := nextPow2 num_coeffs
  if size ≤ 2 ^ A then some size else none

/-- The function `EvaluationDomains::create` from
`circuits/marlin/src/domains.rs` (lines 13-31), over the spec-modelled
external domain constructors with two-adicity `A`; the result is the
size quadruple `(|H|, |K|, |B|, |X|)`. -/
def EvaluationDomainsCreate (A vars pubInputs nonzeroEntries : Nat) :
    Option (Nat × Nat × Nat × Nat) := do
  let h_group_size ← compute_size_of_domain A vars
  let x_group_size ← compute_size_of_domain A pubInputs
  let k_group_size ← compute_size_of_domain A nonzeroEntries
  let h ← domainNew A h_group_size
  let k ← domainNew A k_group_size
  let b ← domainNew A (k_group_size * 3 - 3)
  let x ← domainNew A x_group_size
  return (h, k, b, x)

/-- Predicate: `s` is the smallest power of two that is at least `b`. -/
def IsSmallestPow2Geq (s b : Nat) : Prop :=
  (∃ i, s = 2 ^ i) ∧ b ≤ s ∧ ∀ j, b ≤ 2 ^ j → s ≤ 2 ^ j

/-! ### The ft blinding of the 15-wire prover (`dlog/plonk-15-wires/src/prover.rs`) -/

/-- Structure `PolyComm` of the commitment layer, here instantiated
with field scalars: the blinding side of a commitment (`BlindingComm`)
is itself a `PolyComm` of scalars, one per unshifted chunk plus an
optional shifted part. -/
structure PolyComm (A : Type) where
  unshifted : List A
  shifted : Option A
deriving DecidableEq

/-- Modelled from the spec (§6): `chunk_blinding(point)` of the
external commitment scheme combines the chunk blinders at the point;
only its value at the particular pair used by the prover matters to the
claims, so the combination rule (polynomial evaluation of the chunk
list) is representative. -/
def chunk_blinding (c : PolyComm F) (pt : F) : F :=
  c.unshifted.foldr (fun coeff res => res * pt + coeff) 0

/-- The `non_hiding` closure of `ProverProof::create`
(`dlog/plonk-15-wires/src/prover.rs`, lines 365-368): a zero blinding
with `n` unshifted chunks and no shifted part. -/
def non_hiding (n : Nat) : PolyComm F :=
  ⟨List.replicate n (0 : F), none⟩

/-- The `blinding_ft` block of `ProverProof::create`
(`dlog/plonk-15-wires/src/prover.rs`, lines 370-381):
`blinding_t = t_comm.1.chunk_blinding(zeta_n)`, `blinding_f = 0`, and
the result is the single unshifted scalar
`blinding_f - (zeta_n - 1) * blinding_t` with no shifted part. -/
def blinding_ft (t_blind : PolyComm F) (zeta_n : F) : PolyComm F :=
  let blinding_t := chunk_blinding t_blind zeta_n
  let blinding_f : F := 0
  ⟨[blinding_f - (zeta_n - 1) * blinding_t], none⟩

/-- The blinding column of the `polynomials` list assembled for the
opening proof (`dlog/plonk-15-wires/src/prover.rs`, lines 383-402): the
previous-challenge polynomials (non-hiding, one entry per commitment
length), `p` (non-hiding), the witness columns (their commitment
blinders), `z` (its commitment blinder), the first `PERMUTS - 1` sigma
polynomials (non-hiding), and finally `ft` with `blinding_ft`. -/
def openingBlinders (prevNs : List Nat) (numWitnessCols numSigma : Nat)
    (wBlind : Nat → PolyComm F) (zBlind tBlind : PolyComm F)
    (zetaN : F) : List (PolyComm F) :=
  prevNs.map non_hiding ++
    [non_hiding 1] ++
    (List.range numWitnessCols).map wBlind ++
    [zBlind] ++
    (List.range numSigma).map (fun _ => non_hiding 1) ++
    [blinding_ft tBlind zetaN]


/-! ## Theorems -/

theorem exprAdd_zero_left (x : Expr F) : exprAdd (.Constant 0) x = x := by
  simp [exprAdd]

theorem exprAdd_zero_right (x : Expr F) : exprAdd x (.Constant 0) = x := by
  cases x <;> simp [exprAdd] <;> exact fun h => h.symm

theorem exprMul_one_left (x : Expr F) : exprMul (.Constant 1) x = x := by
  simp [exprMul]

theorem exprMul_one_right (x : Expr F) : exprMul x (.Constant 1) = x := by
  cases x <;> simp [exprMul] <;> exact fun h => h.symm

/-- C8: the overloaded operators return the operand itself on a zero
summand or a unit factor (no wrapping node), and consequently
`Constant 0 + Constant 3 * Cell v` constructs exactly
`Mul (Constant 3) (Cell v)` whenever `3 ≠ 1` in the field. -/
theorem c8_peephole (K : Type) [Field K] [DecidableEq K] :
    (∀ x : Expr K, exprAdd (.Constant 0) x = x) ∧
    (∀ x : Expr K, exprAdd x (.Constant 0) = x) ∧
    (∀ x : Expr K, exprMul (.Constant 1) x = x) ∧
    (∀ x : Expr K, exprMul x (.Constant 1) = x) ∧
    ((3 : K) ≠ 1 → ∀ v : Variable,
      exprAdd (.Constant (0 : K)) (exprMul (.Constant (3 : K)) (.Cell v)) =
        .Mul (.Constant (3 : K)) (.Cell v)) := by
  refine ⟨exprAdd_zero_left, exprAdd_zero_right, exprMul_one_left,
    exprMul_one_right, fun h3 v => ?_⟩
  simp [exprAdd, exprMul, h3]

/-- Witness for C8 at `F = ZMod 5`, `v = (Z, Curr)`. -/
theorem c8_peephole_witness :
    (3 : ZMod 5) ≠ 1 ∧
    exprAdd (.Constant (0 : ZMod 5))
        (exprMul (.Constant 3) (.Cell ⟨.Z, .Curr⟩)) =
      .Mul (.Constant 3) (.Cell ⟨.Z, .Curr⟩) :=
  ⟨by decide, (c8_peephole (ZMod 5)).2.2.2.2 (by decide) _⟩


/-- C2: evaluation of `unnormalized_lagrange_evals` at the concrete
`ZMod 17` environment (`n = 2`, `ω = 16`, `l0_1 = 2`).  The code panics for
the extended domains `D4` and `D8` (the `pows` helper writes out of bounds
for any count ≥ 3), and on `D1` with `i = 1` it returns `[1, 0]`: the
claimed vector has `ω^{-1}·l0_1 = 15` at index `k·i = 1` and `0` at index
`0`, but the zeroing loop for `q in 1..n` runs after `evals[k*i]` was set
and clobbers it, while index 0 keeps the inverted placeholder 1. -/
theorem c2_unnormalized_lagrange_evals_bug :
    unnormalized_lagrange_evals env17.l0_1 0 .D4 env17 =
      .error (.panic "index out of bounds") ∧
    unnormalized_lagrange_evals env17.l0_1 0 .D8 env17 =
      .error (.panic "index out of bounds") ∧
    unnormalized_lagrange_evals env17.l0_1 1 .D1 env17 = .ok [1, 0] ∧
    (16 : ZMod 17) ^ (2 - 1) * env17.l0_1 = 15 ∧ (15 : ZMod 17) ≠ 0 ∧
    unnormalized_lagrange_evals env17.l0_1 0 .D1 env17 = .ok [2, 0] := by
  refine ⟨by decide, by decide, ?_, by decide, by decide, ?_⟩ <;>
    (simp [unnormalized_lagrange_evals, pows, batch_inversion, vecRead, vecWrite,
      get_domain, env17, domains17, l0_1, List.range_succ]; decide)

/-- C3: `EvalResult::mul` on two `SubEvals` with source vectors of
different lengths.  With target domain `D4` of size 8, first operand on
`D4` (stride 1, length-4 vector of ones) and second on `D8` (stride 2,
shift 1, length-8 vector `[10..17]`), the code reduces the second
operand's index modulo the FIRST operand's length: entry 2 reads
`es2[(2·2+1) mod 4] = es2[1] = 11`, whereas reduction modulo the second
operand's own length reads `es2[(2·2+1) mod 8] = es2[5] = 15`. -/
theorem c3_mul_foreign_modulus_bug :
    EvalResult.mul (.SubEvals .D4 0 [1, 1, 1, 1])
        (.SubEvals .D8 1 [10, 11, 12, 13, 14, 15, 16, 17])
        (.D4, (⟨8, 1⟩ : RD (ZMod 19))) =
      .ok (.Evals .D4 [11, 13, 11, 13, 11, 13, 11, 13]) ∧
    ([10, 11, 12, 13, 14, 15, 16, 17] : List (ZMod 19)).get? ((2 * 2 + 1) % 8) =
      some 15 ∧
    (11 : ZMod 19) ≠ 15 := by
  refine ⟨by decide, by decide, by decide⟩


/-! ### List and read helpers -/

theorem vecRead_ok (v : List F) (i : Nat) (x : F) (h : v.get? i = some x) :
    vecRead v i = .ok x := by
  rw [List.get?_eq_getElem?] at h
  simp [vecRead, h]

theorem mapM_range_ok (g : Nat → Except RunError F) (h : Nat → F) (m : Nat)
    (H : ∀ i, i < m → g i = .ok (h i)) :
    (List.range m).mapM g = .ok ((List.range m).map h) := by
  induction m with
  | zero => rfl
  | succ m ih =>
    rw [List.range_succ, List.mapM_append, ih (fun i hi => H i (by omega))]
    simp only [List.map_append, List.mapM_cons, List.mapM_nil, H m (by omega)]
    rfl

theorem get?_map_range (h : Nat → F) {j m : Nat} (hj : j < m) :
    ((List.range m).map h).get? j = some (h j) := by
  rw [List.get?_map, List.get?_range hj]
  rfl

theorem map_range_append_last (h : Nat → F) (m : Nat) (hm : 0 < m) :
    (List.range (m - 1)).map h ++ [h (m - 1)] = (List.range m).map h := by
  conv_rhs => rw [show m = (m - 1) + 1 by omega, List.range_succ]
  simp

theorem valAt_evals_eq {d : Domain} {n : Nat} {sem : Nat → F} {w : List F}
    (hlen : w.length = d.size * n)
    (hval : ∀ j, j < d.size * n → w.get? j = some (sem j)) :
    w = (List.range (d.size * n)).map sem := by
  apply List.ext_get?
  intro j
  by_cases hj : j < d.size * n
  · rw [hval j hj, get?_map_range _ hj]
  · rw [List.get?_eq_none.2 (by omega), List.get?_eq_none.2 (by simp; omega)]

theorem valAt_of_map_range (d : Domain) (n : Nat) (sem : Nat → F) :
    ValAt d n sem (.Evals d ((List.range (d.size * n)).map sem)) := by
  refine ⟨rfl, by simp, fun j hj => get?_map_range _ hj⟩

theorem stride_lt (d : Domain) (n j : Nat) (hj : j < d.size * n) :
    8 / d.size * j < 8 * n := by
  cases d <;> simp [Domain.size] at hj ⊢ <;> omega

theorem subevals_read_ok {w : List F} {d : Domain} {n : Nat} {sem : Nat → F}
    (hlen : w.length = 8 * n)
    (hval : ∀ j, j < d.size * n → w.get? (8 / d.size * j) = some (sem j))
    (i : Nat) (hi : i < d.size * n) :
    vecRead w (8 / d.size * i) = .ok (sem i) :=
  vecRead_ok _ _ _ (hval i hi)

theorem subevals_read_mod_ok {w : List F} {d : Domain} {n : Nat} {sem : Nat → F}
    (hlen : w.length = 8 * n)
    (hval : ∀ j, j < d.size * n → w.get? (8 / d.size * j) = some (sem j))
    (i : Nat) (hi : i < d.size * n) :
    vecRead w (8 / d.size * i % w.length) = .ok (sem i) := by
  rw [hlen, Nat.mod_eq_of_lt (stride_lt d n i hi)]
  exact vecRead_ok _ _ _ (hval i hi)

/-! ### The binary operations respect pointwise values -/

theorem size_D1 : Domain.D1.size = 1 := rfl

theorem size_D4 : Domain.D4.size = 4 := rfl

theorem size_D8 : Domain.D8.size = 8 := rfl

theorem add_valAt (r1 r2 : EvalResult F) (d : Domain) (rd : RD F) (n : Nat)
    (hrd : rd.size = d.size * n) (hn : 0 < n)
    (s1 s2 : Nat → F) (h1 : ValAt d n s1 r1) (h2 : ValAt d n s2 r2) :
    ∃ r, EvalResult.add r1 r2 (d, rd) = .ok r ∧
      ValAt d n (fun j => s1 j + s2 j) r := by
  have hsz : 0 < d.size * n := by cases d <;> simp [Domain.size] <;> omega
  cases r1 with
  | Constant x =>
    cases r2 with
    | Constant y =>
      exact ⟨.Constant (x + y), rfl, fun j hj =>
        show s1 j + s2 j = x + y by rw [h1 j hj, h2 j hj]⟩
    | Evals dom w =>
      obtain ⟨hdom, hlen, hval⟩ := h2
      rw [hdom]
      refine ⟨_, rfl, ?_⟩
      rw [valAt_evals_eq hlen hval, List.map_map]
      have heq : ((List.range (d.size * n)).map ((· + x) ∘ s2)) =
          (List.range (d.size * n)).map (fun j => s1 j + s2 j) :=
        List.map_congr_left fun a ha => by
          have := h1 a (List.mem_range.1 ha)
          simp [this, add_comm]
      rw [heq]
      exact valAt_of_map_range d n _
    | SubEvals dom sh w =>
      obtain ⟨hdom, hs, hlen, hval⟩ := h2
      subst hdom; subst hs
      simp only [EvalResult.add, size_D8, hrd, Nat.add_zero]
      rw [mapM_range_ok _ (fun i => x + s2 i) _
        (fun i hi => by
          rw [subevals_read_ok hlen hval i (by omega)]
          rfl)]
      rw [subevals_read_mod_ok hlen hval (d.size * n - 1) (by omega)]
      refine ⟨_, rfl, ?_⟩
      rw [map_range_append_last (fun i => x + s2 i) _ hsz]
      have heq : ((List.range (d.size * n)).map (fun i => x + s2 i)) =
          (List.range (d.size * n)).map (fun j => s1 j + s2 j) :=
        List.map_congr_left fun a ha => by
          rw [h1 a (List.mem_range.1 ha)]
      rw [heq]
      exact valAt_of_map_range d n _
  | Evals dom1 w1 =>
    obtain ⟨hdom1, hlen1, hval1⟩ := h1
    rw [hdom1]
    cases r2 with
    | Constant x =>
      refine ⟨_, rfl, ?_⟩
      rw [valAt_evals_eq hlen1 hval1, List.map_map]
      have heq : ((List.range (d.size * n)).map ((· + x) ∘ s1)) =
          (List.range (d.size * n)).map (fun j => s1 j + s2 j) :=
        List.map_congr_left fun a ha => by
          have := h2 a (List.mem_range.1 ha)
          simp [this]
      rw [heq]
      exact valAt_of_map_range d n _
    | Evals dom2 w2 =>
      obtain ⟨hdom2, hlen2, hval2⟩ := h2
      rw [hdom2]
      simp only [EvalResult.add]
      rw [if_pos ⟨trivial, by omega⟩]
      refine ⟨_, rfl, ?_⟩
      rw [valAt_evals_eq hlen1 hval1, valAt_evals_eq hlen2 hval2,
        List.zipWith_map_left, List.zipWith_map_right, List.zipWith_same]
      exact valAt_of_map_range d n _
    | SubEvals dom2 sh2 w2 =>
      obtain ⟨hdom2, hs2, hlen2, hval2⟩ := h2
      subst hdom2; subst hs2
      simp only [EvalResult.add, size_D8, Nat.add_zero, hlen1]
      rw [mapM_range_ok _ (fun i => s1 i + s2 i) _
        (fun i hi => by
          rw [vecRead_ok w1 i (s1 i) (hval1 i (by omega)),
            subevals_read_ok hlen2 hval2 i (by omega)]
          rfl)]
      rw [subevals_read_mod_ok hlen2 hval2 (d.size * n - 1) (by omega),
        vecRead_ok w1 (d.size * n - 1) (s1 (d.size * n - 1))
          (hval1 _ (by omega))]
      refine ⟨_, rfl, ?_⟩
      rw [map_range_append_last (fun i => s1 i + s2 i) _ hsz]
      exact valAt_of_map_range d n _
  | SubEvals dom1 sh1 w1 =>
    obtain ⟨hdom1, hs1, hlen1, hval1⟩ := h1
    subst hdom1; subst hs1
    cases r2 with
    | Constant x =>
      simp only [EvalResult.add, size_D8, hrd, Nat.add_zero]
      rw [mapM_range_ok _ (fun i => x + s1 i) _
        (fun i hi => by
          rw [subevals_read_ok hlen1 hval1 i (by omega)]
          rfl)]
      rw [subevals_read_mod_ok hlen1 hval1 (d.size * n - 1) (by omega)]
      refine ⟨_, rfl, ?_⟩
      rw [map_range_append_last (fun i => x + s1 i) _ hsz]
      have heq : ((List.range (d.size * n)).map (fun i => x + s1 i)) =
          (List.range (d.size * n)).map (fun j => s1 j + s2 j) :=
        List.map_congr_left fun a ha => by
          rw [h2 a (List.mem_range.1 ha), add_comm]
      rw [heq]
      exact valAt_of_map_range d n _
    | Evals dom2 w2 =>
      obtain ⟨hdom2, hlen2, hval2⟩ := h2
      rw [hdom2]
      simp only [EvalResult.add, size_D8, Nat.add_zero, hlen2]
      rw [mapM_range_ok _ (fun i => s2 i + s1 i) _
        (fun i hi => by
          rw [vecRead_ok w2 i (s2 i) (hval2 i (by omega)),
            subevals_read_ok hlen1 hval1 i (by omega)]
          rfl)]
      rw [subevals_read_mod_ok hlen1 hval1 (d.size * n - 1) (by omega),
        vecRead_ok w2 (d.size * n - 1) (s2 (d.size * n - 1))
          (hval2 _ (by omega))]
      refine ⟨_, rfl, ?_⟩
      rw [map_range_append_last (fun i => s2 i + s1 i) _ hsz]
      have heq : ((List.range (d.size * n)).map (fun i => s2 i + s1 i)) =
          (List.range (d.size * n)).map (fun j => s1 j + s2 j) :=
        List.map_congr_left fun a ha => by rw [add_comm]
      rw [heq]
      exact valAt_of_map_range d n _
    | SubEvals dom2 sh2 w2 =>
      obtain ⟨hdom2, hs2, hlen2, hval2⟩ := h2
      subst hdom2; subst hs2
      simp only [EvalResult.add, size_D8, hrd, Nat.add_zero]
      rw [mapM_range_ok _ (fun i => s1 i + s2 i) _
        (fun i hi => by
          rw [subevals_read_ok hlen1 hval1 i (by omega),
            subevals_read_ok hlen2 hval2 i (by omega)]
          rfl)]
      rw [subevals_read_mod_ok hlen1 hval1 (d.size * n - 1) (by omega),
        subevals_read_mod_ok hlen2 hval2 (d.size * n - 1) (by omega)]
      refine ⟨_, rfl, ?_⟩
      rw [map_range_append_last (fun i => s1 i + s2 i) _ hsz]
      exact valAt_of_map_range d n _

theorem sub_valAt (r1 r2 : EvalResult F) (d : Domain) (rd : RD F) (n : Nat)
    (hrd : rd.size = d.size * n) (hn : 0 < n)
    (s1 s2 : Nat → F) (h1 : ValAt d n s1 r1) (h2 : ValAt d n s2 r2) :
    ∃ r, EvalResult.sub r1 r2 (d, rd) = .ok r ∧
      ValAt d n (fun j => s1 j - s2 j) r := by
  have hsz : 0 < d.size * n := by cases d <;> simp [Domain.size] <;> omega
  cases r1 with
  | Constant x =>
    cases r2 with
    | Constant y =>
      exact ⟨.Constant (x - y), rfl, fun j hj =>
        show s1 j - s2 j = x - y by rw [h1 j hj, h2 j hj]⟩
    | Evals dom w =>
      obtain ⟨hdom, hlen, hval⟩ := h2
      rw [hdom]
      refine ⟨_, rfl, ?_⟩
      rw [valAt_evals_eq hlen hval, List.map_map]
      have heq : ((List.range (d.size * n)).map ((x - ·) ∘ s2)) =
          (List.range (d.size * n)).map (fun j => s1 j - s2 j) :=
        List.map_congr_left fun a ha => by
          have := h1 a (List.mem_range.1 ha)
          simp [this]
      rw [heq]
      exact valAt_of_map_range d n _
    | SubEvals dom sh w =>
      obtain ⟨hdom, hs, hlen, hval⟩ := h2
      subst hdom; subst hs
      simp only [EvalResult.sub, EvalResult.init, EvalResult.init_, size_D8,
        hrd, Nat.add_zero]
      rw [mapM_range_ok _ (fun i => x - s2 i) _
        (fun i hi => by
          rw [subevals_read_mod_ok hlen hval i (by omega)]
          rfl)]
      refine ⟨_, rfl, ?_⟩
      have heq : ((List.range (d.size * n)).map (fun i => x - s2 i)) =
          (List.range (d.size * n)).map (fun j => s1 j - s2 j) :=
        List.map_congr_left fun a ha => by
          rw [h1 a (List.mem_range.1 ha)]
      rw [heq]
      exact valAt_of_map_range d n _
  | Evals dom1 w1 =>
    obtain ⟨hdom1, hlen1, hval1⟩ := h1
    rw [hdom1]
    cases r2 with
    | Constant x =>
      refine ⟨_, rfl, ?_⟩
      rw [valAt_evals_eq hlen1 hval1, List.map_map]
      have heq : ((List.range (d.size * n)).map ((· - x) ∘ s1)) =
          (List.range (d.size * n)).map (fun j => s1 j - s2 j) :=
        List.map_congr_left fun a ha => by
          have := h2 a (List.mem_range.1 ha)
          simp [this]
      rw [heq]
      exact valAt_of_map_range d n _
    | Evals dom2 w2 =>
      obtain ⟨hdom2, hlen2, hval2⟩ := h2
      rw [hdom2]
      simp only [EvalResult.sub]
      rw [if_pos ⟨trivial, by omega⟩]
      refine ⟨_, rfl, ?_⟩
      rw [valAt_evals_eq hlen1 hval1, valAt_evals_eq hlen2 hval2,
        List.zipWith_map_left, List.zipWith_map_right, List.zipWith_same]
      exact valAt_of_map_range d n _
    | SubEvals dom2 sh2 w2 =>
      obtain ⟨hdom2, hs2, hlen2, hval2⟩ := h2
      subst hdom2; subst hs2
      simp only [EvalResult.sub, size_D8, Nat.add_zero, hlen1]
      rw [mapM_range_ok _ (fun i => s1 i - s2 i) _
        (fun i hi => by
          rw [vecRead_ok w1 i (s1 i) (hval1 i (by omega)),
            subevals_read_ok hlen2 hval2 i (by omega)]
          rfl)]
      rw [subevals_read_mod_ok hlen2 hval2 (d.size * n - 1) (by omega),
        vecRead_ok w1 (d.size * n - 1) (s1 (d.size * n - 1))
          (hval1 _ (by omega))]
      refine ⟨_, rfl, ?_⟩
      rw [map_range_append_last (fun i => s1 i - s2 i) _ hsz]
      exact valAt_of_map_range d n _
  | SubEvals dom1 sh1 w1 =>
    obtain ⟨hdom1, hs1, hlen1, hval1⟩ := h1
    subst hdom1; subst hs1
    cases r2 with
    | Constant x =>
      simp only [EvalResult.sub, EvalResult.init, EvalResult.init_, size_D8,
        hrd, Nat.add_zero]
      rw [mapM_range_ok _ (fun i => s1 i - x) _
        (fun i hi => by
          rw [subevals_read_mod_ok hlen1 hval1 i (by omega)]
          rfl)]
      refine ⟨_, rfl, ?_⟩
      have heq : ((List.range (d.size * n)).map (fun i => s1 i - x)) =
          (List.range (d.size * n)).map (fun j => s1 j - s2 j) :=
        List.map_congr_left fun a ha => by
          rw [h2 a (List.mem_range.1 ha)]
      rw [heq]
      exact valAt_of_map_range d n _
    | Evals dom2 w2 =>
      obtain ⟨hdom2, hlen2, hval2⟩ := h2
      rw [hdom2]
      simp only [EvalResult.sub, size_D8, Nat.add_zero, hlen2]
      rw [mapM_range_ok _ (fun i => s1 i - s2 i) _
        (fun i hi => by
          rw [vecRead_ok w2 i (s2 i) (hval2 i (by omega)),
            subevals_read_ok hlen1 hval1 i (by omega)]
          rfl)]
      rw [subevals_read_mod_ok hlen1 hval1 (d.size * n - 1) (by omega),
        vecRead_ok w2 (d.size * n - 1) (s2 (d.size * n - 1))
          (hval2 _ (by omega))]
      refine ⟨_, rfl, ?_⟩
      rw [map_range_append_last (fun i => s1 i - s2 i) _ hsz]
      exact valAt_of_map_range d n _
    | SubEvals dom2 sh2 w2 =>
      obtain ⟨hdom2, hs2, hlen2, hval2⟩ := h2
      subst hdom2; subst hs2
      simp only [EvalResult.sub, EvalResult.init, EvalResult.init_, size_D8,
        hrd, Nat.add_zero]
      rw [mapM_range_ok _ (fun i => s1 i - s2 i) _
        (fun i hi => by
          rw [subevals_read_mod_ok hlen1 hval1 i (by omega),
            subevals_read_mod_ok hlen2 hval2 i (by omega)]
          rfl)]
      refine ⟨_, rfl, ?_⟩
      exact valAt_of_map_range d n _

theorem mul_valAt (r1 r2 : EvalResult F) (d : Domain) (rd : RD F) (n : Nat)
    (hrd : rd.size = d.size * n) (hn : 0 < n)
    (s1 s2 : Nat → F) (h1 : ValAt d n s1 r1) (h2 : ValAt d n s2 r2) :
    ∃ r, EvalResult.mul r1 r2 (d, rd) = .ok r ∧
      ValAt d n (fun j => s1 j * s2 j) r := by
  have hsz : 0 < d.size * n := by cases d <;> simp [Domain.size] <;> omega
  cases r1 with
  | Constant x =>
    cases r2 with
    | Constant y =>
      exact ⟨.Constant (x * y), rfl, fun j hj =>
        show s1 j * s2 j = x * y by rw [h1 j hj, h2 j hj]⟩
    | Evals dom w =>
      obtain ⟨hdom, hlen, hval⟩ := h2
      rw [hdom]
      refine ⟨_, rfl, ?_⟩
      rw [valAt_evals_eq hlen hval, List.map_map]
      have heq : ((List.range (d.size * n)).map ((· * x) ∘ s2)) =
          (List.range (d.size * n)).map (fun j => s1 j * s2 j) :=
        List.map_congr_left fun a ha => by
          have := h1 a (List.mem_range.1 ha)
          simp [this, mul_comm]
      rw [heq]
      exact valAt_of_map_range d n _
    | SubEvals dom sh w =>
      obtain ⟨hdom, hs, hlen, hval⟩ := h2
      subst hdom; subst hs
      simp only [EvalResult.mul, EvalResult.init, EvalResult.init_, size_D8,
        hrd, Nat.add_zero]
      rw [mapM_range_ok _ (fun i => x * s2 i) _
        (fun i hi => by
          rw [subevals_read_mod_ok hlen hval i (by omega)]
          rfl)]
      refine ⟨_, rfl, ?_⟩
      have heq : ((List.range (d.size * n)).map (fun i => x * s2 i)) =
          (List.range (d.size * n)).map (fun j => s1 j * s2 j) :=
        List.map_congr_left fun a ha => by
          rw [h1 a (List.mem_range.1 ha)]
      rw [heq]
      exact valAt_of_map_range d n _
  | Evals dom1 w1 =>
    obtain ⟨hdom1, hlen1, hval1⟩ := h1
    rw [hdom1]
    cases r2 with
    | Constant x =>
      refine ⟨_, rfl, ?_⟩
      rw [valAt_evals_eq hlen1 hval1, List.map_map]
      have heq : ((List.range (d.size * n)).map ((· * x) ∘ s1)) =
          (List.range (d.size * n)).map (fun j => s1 j * s2 j) :=
        List.map_congr_left fun a ha => by
          have := h2 a (List.mem_range.1 ha)
          simp [this]
      rw [heq]
      exact valAt_of_map_range d n _
    | Evals dom2 w2 =>
      obtain ⟨hdom2, hlen2, hval2⟩ := h2
      rw [hdom2]
      simp only [EvalResult.mul]
      rw [if_pos ⟨trivial, by omega⟩]
      refine ⟨_, rfl, ?_⟩
      rw [valAt_evals_eq hlen1 hval1, valAt_evals_eq hlen2 hval2,
        List.zipWith_map_left, List.zipWith_map_right, List.zipWith_same]
      exact valAt_of_map_range d n _
    | SubEvals dom2 sh2 w2 =>
      obtain ⟨hdom2, hs2, hlen2, hval2⟩ := h2
      subst hdom2; subst hs2
      simp only [EvalResult.mul, size_D8, Nat.add_zero, hlen1]
      rw [mapM_range_ok _ (fun i => s1 i * s2 i) _
        (fun i hi => by
          rw [vecRead_ok w1 i (s1 i) (hval1 i (by omega)),
            subevals_read_ok hlen2 hval2 i (by omega)]
          rfl)]
      rw [subevals_read_mod_ok hlen2 hval2 (d.size * n - 1) (by omega),
        vecRead_ok w1 (d.size * n - 1) (s1 (d.size * n - 1))
          (hval1 _ (by omega))]
      refine ⟨_, rfl, ?_⟩
      rw [map_range_append_last (fun i => s1 i * s2 i) _ hsz]
      exact valAt_of_map_range d n _
  | SubEvals dom1 sh1 w1 =>
    obtain ⟨hdom1, hs1, hlen1, hval1⟩ := h1
    subst hdom1; subst hs1
    cases r2 with
    | Constant x =>
      simp only [EvalResult.mul, EvalResult.init, EvalResult.init_, size_D8,
        hrd, Nat.add_zero]
      rw [mapM_range_ok _ (fun i => x * s1 i) _
        (fun i hi => by
          rw [subevals_read_mod_ok hlen1 hval1 i (by omega)]
          rfl)]
      refine ⟨_, rfl, ?_⟩
      have heq : ((List.range (d.size * n)).map (fun i => x * s1 i)) =
          (List.range (d.size * n)).map (fun j => s1 j * s2 j) :=
        List.map_congr_left fun a ha => by
          rw [h2 a (List.mem_range.1 ha), mul_comm]
      rw [heq]
      exact valAt_of_map_range d n _
    | Evals dom2 w2 =>
      obtain ⟨hdom2, hlen2, hval2⟩ := h2
      rw [hdom2]
      simp only [EvalResult.mul, size_D8, Nat.add_zero, hlen2]
      rw [mapM_range_ok _ (fun i => s2 i * s1 i) _
        (fun i hi => by
          rw [vecRead_ok w2 i (s2 i) (hval2 i (by omega)),
            subevals_read_ok hlen1 hval1 i (by omega)]
          rfl)]
      rw [subevals_read_mod_ok hlen1 hval1 (d.size * n - 1) (by omega),
        vecRead_ok w2 (d.size * n - 1) (s2 (d.size * n - 1))
          (hval2 _ (by omega))]
      refine ⟨_, rfl, ?_⟩
      rw [map_range_append_last (fun i => s2 i * s1 i) _ hsz]
      have heq : ((List.range (d.size * n)).map (fun i => s2 i * s1 i)) =
          (List.range (d.size * n)).map (fun j => s1 j * s2 j) :=
        List.map_congr_left fun a ha => by rw [mul_comm]
      rw [heq]
      exact valAt_of_map_range d n _
    | SubEvals dom2 sh2 w2 =>
      obtain ⟨hdom2, hs2, hlen2, hval2⟩ := h2
      subst hdom2; subst hs2
      simp only [EvalResult.mul, EvalResult.init, EvalResult.init_, size_D8,
        hrd, Nat.add_zero]
      rw [mapM_range_ok _ (fun i => s1 i * s2 i) _
        (fun i hi => by
          rw [subevals_read_mod_ok hlen1 hval1 i (by omega)]
          have hix : (8 / d.size * i) % w1.length = 8 / d.size * i := by
            rw [hlen1]
            exact Nat.mod_eq_of_lt (stride_lt d n i (by omega))
          rw [hix, subevals_read_ok hlen2 hval2 i (by omega)]
          rfl)]
      refine ⟨_, rfl, ?_⟩
      exact valAt_of_map_range d n _

theorem get_domain_size {env : Environment F} {P : Column → F → F}
    {zkf : F → F} {n : Nat} (hc : EnvConsistent env P zkf n) (d : Domain) :
    (get_domain d env).size = d.size * n := by
  cases d
  · rw [get_domain, size_D1, hc.d1_size, one_mul]
  · rw [get_domain, size_D4, hc.d4_size]
  · rw [get_domain, size_D8, hc.d8_size]

theorem evaluations_valAt {env : Environment F} {P : Column → F → F}
    {zkf : F → F} {n : Nat} (hc : EnvConsistent env P zkf n)
    (e : Expr F) (he : goodExpr e = true) (d : Domain) :
    ∃ r, evaluations_ e d env = .ok r ∧
      ValAt d n (fun j => esem (ptCtx env P zkf (ptOf env d j)) e) r := by
  induction e with
  | Constant x => exact ⟨.Constant x, rfl, fun j hj => rfl⟩
  | Alpha p => exact ⟨_, rfl, fun j hj => rfl⟩
  | Beta => exact ⟨_, rfl, fun j hj => rfl⟩
  | Gamma => exact ⟨_, rfl, fun j hj => rfl⟩
  | JointCombiner p => simp [goodExpr] at he
  | UnnormalizedLagrangeBasis i => simp [goodExpr] at he
  | ZkPolynomial =>
    refine ⟨_, rfl, rfl, rfl, hc.zk_len, fun j hj => ?_⟩
    rw [hc.zk_val _ (stride_lt d n j hj)]
    rfl
  | Cell v =>
    obtain ⟨col, row⟩ := v
    cases row with
    | Next => simp [goodExpr] at he
    | Curr =>
      simp only [goodExpr, Bool.and_true] at he
      cases col with
      | Witness i =>
        refine ⟨_, rfl, rfl, rfl, hc.col_len _ he, fun j hj => ?_⟩
        have hv := hc.col_val (.Witness i) he _ (stride_lt d n j hj)
        rw [colVec] at hv
        rw [hv]
        rfl
      | Z =>
        refine ⟨_, rfl, rfl, rfl, hc.col_len _ he, fun j hj => ?_⟩
        have hv := hc.col_val .Z he _ (stride_lt d n j hj)
        rw [colVec] at hv
        rw [hv]
        rfl
      | LookupSorted i =>
        refine ⟨_, rfl, rfl, rfl, hc.col_len _ he, fun j hj => ?_⟩
        have hv := hc.col_val (.LookupSorted i) he _ (stride_lt d n j hj)
        rw [colVec] at hv
        rw [hv]
        rfl
      | LookupAggreg =>
        refine ⟨_, rfl, rfl, rfl, hc.col_len _ he, fun j hj => ?_⟩
        have hv := hc.col_val .LookupAggreg he _ (stride_lt d n j hj)
        rw [colVec] at hv
        rw [hv]
        rfl
      | LookupTable =>
        refine ⟨_, rfl, rfl, rfl, hc.col_len _ he, fun j hj => ?_⟩
        have hv := hc.col_val .LookupTable he _ (stride_lt d n j hj)
        rw [colVec] at hv
        rw [hv]
        rfl
      | LookupKindIndex i => simp [scalarCol] at he
      | Index t => simp [scalarCol] at he
  | Mul a b ih1 ih2 =>
    simp only [goodExpr, Bool.and_eq_true] at he
    obtain ⟨r1, hr1, hv1⟩ := ih1 he.1
    obtain ⟨r2, hr2, hv2⟩ := ih2 he.2
    obtain ⟨r, hr, hv⟩ := mul_valAt r1 r2 d (get_domain d env) n
      (get_domain_size hc d) hc.hn _ _ hv1 hv2
    refine ⟨r, ?_, hv⟩
    simp only [evaluations_, hr1, hr2]
    simpa using hr
  | Add a b ih1 ih2 =>
    simp only [goodExpr, Bool.and_eq_true] at he
    obtain ⟨r1, hr1, hv1⟩ := ih1 he.1
    obtain ⟨r2, hr2, hv2⟩ := ih2 he.2
    obtain ⟨r, hr, hv⟩ := add_valAt r1 r2 d (get_domain d env) n
      (get_domain_size hc d) hc.hn _ _ hv1 hv2
    refine ⟨r, ?_, hv⟩
    simp only [evaluations_, hr1, hr2]
    simpa using hr
  | Sub a b ih1 ih2 =>
    simp only [goodExpr, Bool.and_eq_true] at he
    obtain ⟨r1, hr1, hv1⟩ := ih1 he.1
    obtain ⟨r2, hr2, hv2⟩ := ih2 he.2
    obtain ⟨r, hr, hv⟩ := sub_valAt r1 r2 d (get_domain d env) n
      (get_domain_size hc d) hc.hn _ _ hv1 hv2
    refine ⟨r, ?_, hv⟩
    simp only [evaluations_, hr1, hr2]
    simpa using hr

theorem evaluate_good {env : Environment F} {P : Column → F → F} {zkf : F → F}
    (zkp : RD F → F → F) (d1 : RD F) (x : F)
    (oracles : RandomOracles F) (er : ProofEvaluations F × ProofEvaluations F)
    (hzkp : zkp d1 x = zkf x)
    (ha : oracles.alpha = env.alpha) (hb : oracles.beta = env.beta)
    (hg : oracles.gamma = env.gamma)
    (h0 : ∀ c, scalarCol c = true → recordVal er.1 c = P c x)
    (e : Expr F) (he : goodExpr e = true) :
    evaluate zkp e d1 x oracles er = .ok (esem (ptCtx env P zkf x) e) := by
  induction e with
  | Constant x0 => rfl
  | Alpha p => simp [evaluate, esem, ptCtx, ha]
  | Beta => simp [evaluate, esem, ptCtx, hb]
  | Gamma => simp [evaluate, esem, ptCtx, hg]
  | JointCombiner p => simp [goodExpr] at he
  | UnnormalizedLagrangeBasis i => simp [goodExpr] at he
  | ZkPolynomial => simp [evaluate, esem, ptCtx, hzkp]
  | Cell v =>
    obtain ⟨col, row⟩ := v
    cases row with
    | Next => simp [goodExpr] at he
    | Curr =>
      simp only [goodExpr, Bool.and_true] at he
      have hrv := h0 col he
      cases col with
      | Witness i => exact congrArg Except.ok hrv
      | Z => exact congrArg Except.ok hrv
      | LookupSorted i => exact congrArg Except.ok hrv
      | LookupAggreg => exact congrArg Except.ok hrv
      | LookupTable => exact congrArg Except.ok hrv
      | LookupKindIndex i => simp [scalarCol] at he
      | Index t => simp [scalarCol] at he
  | Mul a b ih1 ih2 =>
    simp only [goodExpr, Bool.and_eq_true] at he
    simp only [evaluate, ih1 he.1, ih2 he.2]
    rfl
  | Add a b ih1 ih2 =>
    simp only [goodExpr, Bool.and_eq_true] at he
    simp only [evaluate, ih1 he.1, ih2 he.2]
    rfl
  | Sub a b ih1 ih2 =>
    simp only [goodExpr, Bool.and_eq_true] at he
    simp only [evaluate, ih1 he.1, ih2 he.2]
    rfl

theorem except_bind_ok {A B : Type} (x : A) (f : A → Except RunError B) :
    (Except.ok x >>= f) = f x := rfl

theorem evaluations_ok {env : Environment F} {P : Column → F → F}
    {zkf : F → F} {n : Nat} (hc : EnvConsistent env P zkf n)
    (e : Expr F) (he : goodExpr e = true) (d : Domain)
    (hd : chooseDomain (e.degree n) n = .ok d) :
    evaluations e env =
      .ok ((List.range (d.size * n)).map
        (fun j => esem (ptCtx env P zkf (ptOf env d j)) e)) := by
  obtain ⟨r, hr, hv⟩ := evaluations_valAt hc e he d
  have hsz : (get_domain d env).size = d.size * n := get_domain_size hc d
  cases r with
  | Evals dom w =>
    obtain ⟨hdom, hlen, hval⟩ := hv
    simp only [evaluations, hc.d1_size, hd, hr, except_bind_ok]
    rw [if_pos hdom]
    rw [valAt_evals_eq hlen hval]
  | Constant x =>
    simp only [evaluations, hc.d1_size, hd, hr, except_bind_ok, EvalResult.init_, hsz]
    rw [mapM_range_ok _ (fun _ => x) _ (fun i hi => rfl)]
    have heq : ((List.range (d.size * n)).map (fun _ => x)) =
        (List.range (d.size * n)).map
          (fun j => esem (ptCtx env P zkf (ptOf env d j)) e) :=
      List.map_congr_left fun a ha => (hv a (List.mem_range.1 ha)).symm
    rw [heq]
  | SubEvals dom sh w =>
    obtain ⟨hdom, hs, hlen, hval⟩ := hv
    subst hdom; subst hs
    simp only [evaluations, hc.d1_size, hd, hr, except_bind_ok, EvalResult.init_, hsz,
      size_D8, Nat.add_zero]
    rw [mapM_range_ok _
      (fun j => esem (ptCtx env P zkf (ptOf env d j)) e) _
      (fun i hi => subevals_read_mod_ok hlen hval i hi)]

/-- C1 (amended): domain-extension consistency on the fragment
`goodExpr` (no `JointCombiner`, no `UnnormalizedLagrangeBasis`, no index
cells, no Next-row cells), for a degree estimate within `8·|H|` and an
environment whose vectors are the D8 evaluations of the column
polynomials `P` (`EnvConsistent`).  Then `evaluations` succeeds, its
vector has the length of the chosen domain and, at every index `j`,
`evaluate` at the `j`-th point of that domain — with oracles and
evaluation records supplying the values the environment holds — returns
exactly the `j`-th entry. -/
theorem c1_domain_extension_amended (K : Type) [Field K] [DecidableEq K]
    (env : Environment K) (P : Column → K → K) (zkf : K → K) (n : Nat)
    (hc : EnvConsistent env P zkf n)
    (e : Expr K) (he : goodExpr e = true)
    (hdeg : e.degree n ≤ 8 * n)
    (d : Domain) (hd : chooseDomain (e.degree n) n = .ok d) :
    ∃ vec, evaluations e env = .ok vec ∧ vec.length = d.size * n ∧
      ∀ j, j < d.size * n →
      ∀ (zkp : RD K → K → K) (oracles : RandomOracles K)
        (er : ProofEvaluations K × ProofEvaluations K),
        zkp env.domain.d1 ((get_domain d env).group_gen ^ j) =
          zkf ((get_domain d env).group_gen ^ j) →
        oracles.alpha = env.alpha → oracles.beta = env.beta →
        oracles.gamma = env.gamma →
        (∀ c, scalarCol c = true →
          recordVal er.1 c = P c ((get_domain d env).group_gen ^ j)) →
        ∃ y, vec.get? j = some y ∧
          evaluate zkp e env.domain.d1 ((get_domain d env).group_gen ^ j)
            oracles er = .ok y := by
  have hpt : ∀ j : Nat, (get_domain d env).group_gen ^ j = ptOf env d j := by
    intro j
    cases d
    · rw [get_domain, hc.d1_gen, ptOf, size_D1, ← pow_mul]
    · rw [get_domain, hc.d4_gen, ptOf, size_D4, ← pow_mul]
    · rw [get_domain, ptOf, size_D8, Nat.div_self (by norm_num), one_mul]
  refine ⟨_, evaluations_ok hc e he d hd, by simp, fun j hj zkp oracles er
    hzkp ha hb hg h0 => ?_⟩
  refine ⟨esem (ptCtx env P zkf (ptOf env d j)) e, get?_map_range _ hj, ?_⟩
  rw [hpt j] at hzkp h0 ⊢
  exact evaluate_good zkp env.domain.d1 (ptOf env d j) oracles er hzkp
    ha hb hg h0 e he

/-- C1 counterexample: the claim as stated fails on
`UnnormalizedLagrangeBasis 0` over the concrete `ZMod 17` environment
(`n = 2`, `ω = 16`, `l0_1 = 2`).  `evaluations` picks `D1` and returns
the vector `[2, 0]`, but `evaluate` at the 0-th point of that domain
(`ω^0 = 1`) divides `Z(1) = 0` by `1 - ω^0 = 0` and panics instead of
producing the entry `2`. -/
theorem c1_domain_extension_counterexample :
    evaluations (Expr.UnnormalizedLagrangeBasis 0) env17 = .ok [2, 0] ∧
    evaluate (fun _ _ => 0) (Expr.UnnormalizedLagrangeBasis 0)
        env17.domain.d1 ((16 : ZMod 17) ^ 0) or17 (pe17, pe17) =
      .error (.panic "division by zero") ∧
    (2 : ZMod 17) ≠ 0 := by
  refine ⟨?_, by decide, by decide⟩
  simp [evaluations, chooseDomain, evaluations_, Expr.degree,
    unnormalized_lagrange_evals, pows, batch_inversion, vecRead, vecWrite,
    get_domain, env17, domains17, l0_1, List.range_succ]
  decide

theorem envC_consistent :
    EnvConsistent envC (fun _ x => x) (fun x => x) 2 := by
  refine ⟨by norm_num, by decide, by decide, by decide, by decide, by decide,
    ?_, ?_, by decide, ?_⟩
  · intro c hc2
    cases c with
    | Witness i => simp [colVec, envC]
    | Z => simp [colVec, envC]
    | LookupSorted i => simp [colVec, envC]
    | LookupAggreg => simp [colVec, envC]
    | LookupTable => simp [colVec, envC]
    | LookupKindIndex i => simp [scalarCol] at hc2
    | Index t => simp [scalarCol] at hc2
  · intro c hc2 m hm
    cases c <;>
      first
      | exact get?_map_range (fun m => (3 : ZMod 17) ^ m) (by omega)
      | simp [scalarCol] at hc2
  · intro m hm
    exact get?_map_range (fun m => (3 : ZMod 17) ^ m) (by omega)

/-- Witness for the amended C1 at the concrete environment `envC`
(`ZMod 17`, `n = 2`), `e = Cell (Z, Curr)` (degree 2, chosen domain D1). -/
theorem c1_domain_extension_amended_witness :
    ∃ vec, evaluations (Expr.Cell ⟨.Z, .Curr⟩) envC = .ok vec ∧
      vec.length = Domain.D1.size * 2 ∧
      ∀ j, j < Domain.D1.size * 2 →
      ∀ (zkp : RD (ZMod 17) → ZMod 17 → ZMod 17)
        (oracles : RandomOracles (ZMod 17))
        (er : ProofEvaluations (ZMod 17) × ProofEvaluations (ZMod 17)),
        zkp envC.domain.d1 ((get_domain .D1 envC).group_gen ^ j) =
          (get_domain .D1 envC).group_gen ^ j →
        oracles.alpha = envC.alpha → oracles.beta = envC.beta →
        oracles.gamma = envC.gamma →
        (∀ c, scalarCol c = true →
          recordVal er.1 c = (get_domain .D1 envC).group_gen ^ j) →
        ∃ y, vec.get? j = some y ∧
          evaluate zkp (Expr.Cell ⟨.Z, .Curr⟩) envC.domain.d1
            ((get_domain .D1 envC).group_gen ^ j) oracles er = .ok y :=
  c1_domain_extension_amended (ZMod 17) envC (fun _ x => x) (fun x => x) 2
    envC_consistent (Expr.Cell ⟨.Z, .Curr⟩) (by decide) (by decide)
    .D1 (by decide)

/-! ### Semantics of the smart constructors and of monomial expansion -/

theorem esem_exprAdd (ctx : SemCtx F) (a b : Expr F) :
    esem ctx (exprAdd a b) = esem ctx a + esem ctx b := by
  cases a <;> cases b <;> simp only [exprAdd] <;> (try split_ifs) <;>
    simp_all [esem]

theorem esem_exprMul (ctx : SemCtx F) (a b : Expr F) :
    esem ctx (exprMul a b) = esem ctx a * esem ctx b := by
  cases a <;> cases b <;> simp only [exprMul] <;> (try split_ifs) <;>
    simp_all [esem]

theorem esem_exprSub (ctx : SemCtx F) (a b : Expr F) :
    esem ctx (exprSub a b) = esem ctx a - esem ctx b := rfl

theorem esem_foldl_mul_cells (ctx : SemCtx F) (c : Expr F)
    (l : List Variable) :
    esem ctx (l.foldl (fun acc v => exprMul acc (.Cell v)) c) =
      esem ctx c * cellProd ctx.cell l := by
  induction l generalizing c with
  | nil => simp [cellProd]
  | cons v rest ih =>
    rw [List.foldl_cons, ih, esem_exprMul]
    simp [cellProd, esem, mul_assoc]

theorem cellProd_partition (cell : Variable → F) (p : Variable → Bool)
    (m : List Variable) :
    cellProd cell m =
      cellProd cell (m.partition p).1 * cellProd cell (m.partition p).2 := by
  simp only [List.partition_eq_filter_filter, cellProd]
  rw [← List.prod_append, ← List.map_append]
  exact (((List.filter_append_perm p m).map cell).prod_eq).symm

theorem cellProd_sortVars_append (cell : Variable → F) (m1 m2 : List Variable) :
    cellProd cell (sortVars (m1 ++ m2)) =
      cellProd cell m1 * cellProd cell m2 := by
  unfold cellProd sortVars
  rw [((List.perm_insertionSort varLe (m1 ++ m2)).map cell).prod_eq,
    List.map_append, List.prod_append]

theorem sum_map_upsertWith_add {K : Type} [DecidableEq K] (w : K → F)
    (ctx : SemCtx F) (key : K) (c : Expr F) (l : List (K × Expr F)) :
    ((upsertWith key c exprAdd l).map (fun p => esem ctx p.2 * w p.1)).sum =
      (l.map (fun p => esem ctx p.2 * w p.1)).sum + esem ctx c * w key := by
  induction l with
  | nil => simp [upsertWith, esem_exprAdd, esem]
  | cons p rest ih =>
    obtain ⟨k0, v0⟩ := p
    by_cases hk : k0 = key
    · subst hk
      simp only [upsertWith, eq_self_iff_true, if_true, List.map_cons,
        List.sum_cons, esem_exprAdd]
      ring
    · simp only [upsertWith, if_neg hk, List.map_cons, List.sum_cons, ih]
      ring

theorem sum_map_upsertWith_sub {K : Type} [DecidableEq K] (w : K → F)
    (ctx : SemCtx F) (key : K) (c : Expr F) (l : List (K × Expr F)) :
    ((upsertWith key c exprSub l).map (fun p => esem ctx p.2 * w p.1)).sum =
      (l.map (fun p => esem ctx p.2 * w p.1)).sum - esem ctx c * w key := by
  induction l with
  | nil => simp [upsertWith, esem_exprSub, esem]
  | cons p rest ih =>
    obtain ⟨k0, v0⟩ := p
    by_cases hk : k0 = key
    · subst hk
      simp only [upsertWith, eq_self_iff_true, if_true, List.map_cons,
        List.sum_cons, esem_exprSub]
      ring
    · simp only [upsertWith, if_neg hk, List.map_cons, List.sum_cons, ih]
      ring

theorem msum_upsertWith_add (ctx : SemCtx F) (key : List Variable)
    (c : Expr F) (l : List (List Variable × Expr F)) :
    msum ctx (upsertWith key c exprAdd l) = msum ctx l + mterm ctx (key, c) :=
  sum_map_upsertWith_add (cellProd ctx.cell) ctx key c l

theorem msum_upsertWith_sub (ctx : SemCtx F) (key : List Variable)
    (c : Expr F) (l : List (List Variable × Expr F)) :
    msum ctx (upsertWith key c exprSub l) = msum ctx l - mterm ctx (key, c) :=
  sum_map_upsertWith_sub (cellProd ctx.cell) ctx key c l

theorem msum_foldl_upsert_add (ctx : SemCtx F)
    (l2 l1 : List (List Variable × Expr F)) :
    msum ctx (l2.foldl (fun res mc => upsertWith mc.1 mc.2 exprAdd res) l1) =
      msum ctx l1 + msum ctx l2 := by
  induction l2 generalizing l1 with
  | nil => simp [msum]
  | cons mc l2' ih =>
    rw [List.foldl_cons, ih, msum_upsertWith_add]
    simp only [msum, List.map_cons, List.sum_cons]
    ring

theorem msum_foldl_upsert_sub (ctx : SemCtx F)
    (l2 l1 : List (List Variable × Expr F)) :
    msum ctx (l2.foldl (fun res mc => upsertWith mc.1 mc.2 exprSub res) l1) =
      msum ctx l1 - msum ctx l2 := by
  induction l2 generalizing l1 with
  | nil => simp [msum]
  | cons mc l2' ih =>
    rw [List.foldl_cons, ih, msum_upsertWith_sub]
    simp only [msum, List.map_cons, List.sum_cons]
    ring

theorem msum_foldl_mul_inner (ctx : SemCtx F) (mc1 : List Variable × Expr F)
    (l2 res : List (List Variable × Expr F)) :
    msum ctx
      (l2.foldl
        (fun res mc2 =>
          upsertWith (sortVars (mc1.1 ++ mc2.1)) (exprMul mc1.2 mc2.2)
            exprAdd res) res) =
      msum ctx res + mterm ctx mc1 * msum ctx l2 := by
  induction l2 generalizing res with
  | nil => simp [msum]
  | cons mc2 l2' ih =>
    rw [List.foldl_cons, ih, msum_upsertWith_add]
    have hterm : mterm ctx (sortVars (mc1.1 ++ mc2.1), exprMul mc1.2 mc2.2) =
        mterm ctx mc1 * mterm ctx mc2 := by
      simp only [mterm, esem_exprMul, cellProd_sortVars_append]
      ring
    rw [hterm]
    simp only [msum, List.map_cons, List.sum_cons]
    ring

theorem msum_foldl_mul_outer (ctx : SemCtx F)
    (l1 l2 res : List (List Variable × Expr F)) :
    msum ctx
      (l1.foldl
        (fun res mc1 =>
          l2.foldl
            (fun res mc2 =>
              upsertWith (sortVars (mc1.1 ++ mc2.1)) (exprMul mc1.2 mc2.2)
                exprAdd res) res) res) =
      msum ctx res + msum ctx l1 * msum ctx l2 := by
  induction l1 generalizing res with
  | nil => simp [msum]
  | cons mc1 l1' ih =>
    rw [List.foldl_cons, ih, msum_foldl_mul_inner]
    simp only [msum, List.map_cons, List.sum_cons]
    ring

theorem msum_monomials (ctx : SemCtx F) (e : Expr F) :
    msum ctx (monomials e) = esem ctx e := by
  induction e with
  | Alpha p => simp [monomials, msum, mterm, cellProd, esem]
  | Beta => simp [monomials, msum, mterm, cellProd, esem]
  | Gamma => simp [monomials, msum, mterm, cellProd, esem]
  | JointCombiner p => simp [monomials, msum, mterm, cellProd, esem]
  | Constant x => simp [monomials, msum, mterm, cellProd, esem]
  | Cell v => simp [monomials, msum, mterm, cellProd, esem]
  | ZkPolynomial => simp [monomials, msum, mterm, cellProd, esem]
  | UnnormalizedLagrangeBasis i => simp [monomials, msum, mterm, cellProd, esem]
  | Add e1 e2 ih1 ih2 =>
    rw [monomials, msum_foldl_upsert_add, ih1, ih2]
    rfl
  | Sub e1 e2 ih1 ih2 =>
    rw [monomials, msum_foldl_upsert_sub, ih1, ih2]
    rfl
  | Mul e1 e2 ih1 ih2 =>
    rw [monomials, msum_foldl_mul_outer, ih1, ih2]
    simp [msum, esem]

/-! ### Value of a linearization -/

theorem except_bind_err {A B : Type} (e : RunError)
    (f : A → Except RunError B) :
    ((Except.error e : Except RunError A) >>= f) = .error e := rfl

theorem colTermSum_nil (ctx : SemCtx F) : colTermSum ctx ([] : List (Column × Expr F)) = 0 := rfl

theorem colTermSum_upsertWith_add (ctx : SemCtx F) (key : Column)
    (c : Expr F) (l : List (Column × Expr F)) :
    colTermSum ctx (upsertWith key c exprAdd l) =
      colTermSum ctx l + esem ctx c * ctx.cell ⟨key, .Curr⟩ :=
  sum_map_upsertWith_add (fun k => ctx.cell ⟨k, .Curr⟩) ctx key c l

theorem linStep_ok_val (ctx : SemCtx F) (S : List Column)
    (st st' : Expr F × List (Column × Expr F)) (mc : List Variable × Expr F)
    (h : linStep S st mc = .ok st') :
    esem ctx st'.1 + colTermSum ctx st'.2 =
      esem ctx st.1 + colTermSum ctx st.2 + mterm ctx mc := by
  simp only [linStep] at h
  have hprod := cellProd_partition ctx.cell (fun v => S.contains v.col) mc.1
  rcases hp : (mc.1.partition (fun v => S.contains v.col)).2 with _ | ⟨v, rest⟩
  · rw [hp] at h
    rw [Except.ok.injEq] at h
    subst h
    rw [hp] at hprod
    simp only [esem_exprAdd, esem_foldl_mul_cells]
    rw [mterm, hprod]
    simp [cellProd]
    ring
  · rcases rest with _ | ⟨v2, rest2⟩
    · rw [hp] at h
      obtain ⟨vcol, vrow⟩ := v
      cases vrow with
      | Next => simp at h
      | Curr =>
        rw [Except.ok.injEq] at h
        subst h
        rw [hp] at hprod
        rw [colTermSum_upsertWith_add, esem_foldl_mul_cells, mterm, hprod]
        simp [cellProd]
        ring
    · rw [hp] at h
      simp at h

theorem foldlM_linStep_val (ctx : SemCtx F) (S : List Column)
    (ms : List (List Variable × Expr F)) :
    ∀ st st', ms.foldlM (linStep S) st = .ok st' →
    esem ctx st'.1 + colTermSum ctx st'.2 =
      esem ctx st.1 + colTermSum ctx st.2 + msum ctx ms := by
  induction ms with
  | nil =>
    intro st st' h
    simp only [List.foldlM_nil, pure, Except.pure] at h
    rw [Except.ok.injEq] at h
    subst h
    simp [msum]
  | cons mc ms' ih =>
    intro st st' h
    rw [List.foldlM_cons] at h
    cases hstep : linStep S st mc with
    | error e => rw [hstep, except_bind_err] at h; simp at h
    | ok st1 =>
      rw [hstep, except_bind_ok] at h
      rw [ih st1 st' h, linStep_ok_val ctx S st st1 mc hstep]
      simp only [msum, List.map_cons, List.sum_cons]
      ring

theorem linearizeFrom_ok_val (ctx : SemCtx F)
    (ms : List (List Variable × Expr F)) (S : List Column)
    (lin : Linearization F) (h : linearizeFrom ms S = .ok lin) :
    esem ctx lin.constant_term + colTermSum ctx lin.index_terms =
      msum ctx ms := by
  unfold linearizeFrom at h
  cases hf : ms.foldlM (linStep S) ((Expr.Constant 0 : Expr F), []) with
  | error e => rw [hf, except_bind_err] at h; simp at h
  | ok st =>
    rw [hf, except_bind_ok] at h
    rw [Except.ok.injEq] at h
    subst h
    have hv := foldlM_linStep_val ctx S ms _ _ hf
    simpa [esem, colTermSum_nil] using hv

/-! ### Transfer between `evaluate` and the total semantics -/

theorem evaluate_ok_esem (zkp : RD F → F → F) (d : RD F) (pt : F)
    (oracles : RandomOracles F)
    (er : ProofEvaluations F × ProofEvaluations F) :
    ∀ (e : Expr F) (v : F), evaluate zkp e d pt oracles er = .ok v →
      v = esem (ctxOf zkp d pt oracles er) e := by
  intro e
  induction e with
  | Alpha p =>
    intro v h
    rw [evaluate, Except.ok.injEq] at h
    exact h.symm
  | Beta =>
    intro v h
    rw [evaluate, Except.ok.injEq] at h
    exact h.symm
  | Gamma =>
    intro v h
    rw [evaluate, Except.ok.injEq] at h
    exact h.symm
  | Constant x =>
    intro v h
    rw [evaluate, Except.ok.injEq] at h
    exact h.symm
  | JointCombiner p =>
    intro v h
    rw [evaluate] at h
    simp at h
  | ZkPolynomial =>
    intro v h
    rw [evaluate, Except.ok.injEq] at h
    exact h.symm
  | UnnormalizedLagrangeBasis i =>
    intro v h
    rw [evaluate] at h
    by_cases hden : pt - d.group_gen ^ i = 0
    · rw [if_pos hden] at h
      simp at h
    · rw [if_neg hden, Except.ok.injEq] at h
      exact h.symm
  | Cell v0 =>
    obtain ⟨col, row⟩ := v0
    intro v h
    cases col <;> cases row <;>
      simp only [evaluate] at h <;>
      first
        | (rw [Except.ok.injEq] at h; exact h.symm)
        | simp at h
  | Mul a b iha ihb =>
    intro v h
    simp only [evaluate] at h
    cases ha : evaluate zkp a d pt oracles er with
    | error e1 => rw [ha, except_bind_err] at h; simp at h
    | ok va =>
      rw [ha, except_bind_ok] at h
      cases hb : evaluate zkp b d pt oracles er with
      | error e2 => rw [hb, except_bind_err] at h; simp at h
      | ok vb =>
        rw [hb, except_bind_ok, Except.ok.injEq] at h
        rw [← h, iha va ha, ihb vb hb]
        rfl
  | Add a b iha ihb =>
    intro v h
    simp only [evaluate] at h
    cases ha : evaluate zkp a d pt oracles er with
    | error e1 => rw [ha, except_bind_err] at h; simp at h
    | ok va =>
      rw [ha, except_bind_ok] at h
      cases hb : evaluate zkp b d pt oracles er with
      | error e2 => rw [hb, except_bind_err] at h; simp at h
      | ok vb =>
        rw [hb, except_bind_ok, Except.ok.injEq] at h
        rw [← h, iha va ha, ihb vb hb]
        rfl
  | Sub a b iha ihb =>
    intro v h
    simp only [evaluate] at h
    cases ha : evaluate zkp a d pt oracles er with
    | error e1 => rw [ha, except_bind_err] at h; simp at h
    | ok va =>
      rw [ha, except_bind_ok] at h
      cases hb : evaluate zkp b d pt oracles er with
      | error e2 => rw [hb, except_bind_err] at h; simp at h
      | ok vb =>
        rw [hb, except_bind_ok, Except.ok.injEq] at h
        rw [← h, iha va ha, ihb vb hb]
        rfl

theorem evaluate_mul_ok {zkp : RD F → F → F} {d : RD F} {pt : F}
    {oracles : RandomOracles F}
    {er : ProofEvaluations F × ProofEvaluations F} {a b : Expr F} {v : F}
    (h : evaluate zkp (.Mul a b) d pt oracles er = .ok v) :
    (∃ va, evaluate zkp a d pt oracles er = .ok va) ∧
    (∃ vb, evaluate zkp b d pt oracles er = .ok vb) := by
  simp only [evaluate] at h
  cases ha : evaluate zkp a d pt oracles er with
  | error e1 => rw [ha, except_bind_err] at h; simp at h
  | ok va =>
    rw [ha, except_bind_ok] at h
    cases hb : evaluate zkp b d pt oracles er with
    | error e2 => rw [hb, except_bind_err] at h; simp at h
    | ok vb => exact ⟨⟨va, rfl⟩, ⟨vb, rfl⟩⟩

theorem evaluate_add_ok {zkp : RD F → F → F} {d : RD F} {pt : F}
    {oracles : RandomOracles F}
    {er : ProofEvaluations F × ProofEvaluations F} {a b : Expr F} {v : F}
    (h : evaluate zkp (.Add a b) d pt oracles er = .ok v) :
    (∃ va, evaluate zkp a d pt oracles er = .ok va) ∧
    (∃ vb, evaluate zkp b d pt oracles er = .ok vb) := by
  simp only [evaluate] at h
  cases ha : evaluate zkp a d pt oracles er with
  | error e1 => rw [ha, except_bind_err] at h; simp at h
  | ok va =>
    rw [ha, except_bind_ok] at h
    cases hb : evaluate zkp b d pt oracles er with
    | error e2 => rw [hb, except_bind_err] at h; simp at h
    | ok vb => exact ⟨⟨va, rfl⟩, ⟨vb, rfl⟩⟩

theorem evaluate_sub_ok {zkp : RD F → F → F} {d : RD F} {pt : F}
    {oracles : RandomOracles F}
    {er : ProofEvaluations F × ProofEvaluations F} {a b : Expr F} {v : F}
    (h : evaluate zkp (.Sub a b) d pt oracles er = .ok v) :
    (∃ va, evaluate zkp a d pt oracles er = .ok va) ∧
    (∃ vb, evaluate zkp b d pt oracles er = .ok vb) := by
  simp only [evaluate] at h
  cases ha : evaluate zkp a d pt oracles er with
  | error e1 => rw [ha, except_bind_err] at h; simp at h
  | ok va =>
    rw [ha, except_bind_ok] at h
    cases hb : evaluate zkp b d pt oracles er with
    | error e2 => rw [hb, except_bind_err] at h; simp at h
    | ok vb => exact ⟨⟨va, rfl⟩, ⟨vb, rfl⟩⟩

theorem evalsTo_of_ok {zkp : RD F → F → F} {d : RD F} {pt : F}
    {oracles : RandomOracles F}
    {er : ProofEvaluations F × ProofEvaluations F} {e : Expr F}
    (h : ∃ v, evaluate zkp e d pt oracles er = .ok v) :
    evaluate zkp e d pt oracles er =
      .ok (esem (ctxOf zkp d pt oracles er) e) := by
  obtain ⟨v, hv⟩ := h
  rw [hv, evaluate_ok_esem zkp d pt oracles er e v hv]

theorem evalsTo_exprAdd {zkp : RD F → F → F} {d : RD F} {pt : F}
    {oracles : RandomOracles F}
    {er : ProofEvaluations F × ProofEvaluations F} {a b : Expr F}
    (h1 : evaluate zkp a d pt oracles er =
      .ok (esem (ctxOf zkp d pt oracles er) a))
    (h2 : evaluate zkp b d pt oracles er =
      .ok (esem (ctxOf zkp d pt oracles er) b)) :
    evaluate zkp (exprAdd a b) d pt oracles er =
      .ok (esem (ctxOf zkp d pt oracles er) (exprAdd a b)) := by
  have hAdd : evaluate zkp (.Add a b) d pt oracles er =
      .ok (esem (ctxOf zkp d pt oracles er) (.Add a b)) := by
    simp only [evaluate, h1, h2, except_bind_ok]
    rfl
  cases a <;> cases b <;> simp only [exprAdd] <;> (try split_ifs) <;>
    first
      | exact hAdd
      | exact h1
      | exact h2

theorem evalsTo_exprMul {zkp : RD F → F → F} {d : RD F} {pt : F}
    {oracles : RandomOracles F}
    {er : ProofEvaluations F × ProofEvaluations F} {a b : Expr F}
    (h1 : evaluate zkp a d pt oracles er =
      .ok (esem (ctxOf zkp d pt oracles er) a))
    (h2 : evaluate zkp b d pt oracles er =
      .ok (esem (ctxOf zkp d pt oracles er) b)) :
    evaluate zkp (exprMul a b) d pt oracles er =
      .ok (esem (ctxOf zkp d pt oracles er) (exprMul a b)) := by
  have hMul : evaluate zkp (.Mul a b) d pt oracles er =
      .ok (esem (ctxOf zkp d pt oracles er) (.Mul a b)) := by
    simp only [evaluate, h1, h2, except_bind_ok]
    rfl
  cases a <;> cases b <;> simp only [exprMul] <;> (try split_ifs) <;>
    first
      | exact hMul
      | exact h1
      | exact h2

theorem evalsTo_exprSub {zkp : RD F → F → F} {d : RD F} {pt : F}
    {oracles : RandomOracles F}
    {er : ProofEvaluations F × ProofEvaluations F} {a b : Expr F}
    (h1 : evaluate zkp a d pt oracles er =
      .ok (esem (ctxOf zkp d pt oracles er) a))
    (h2 : evaluate zkp b d pt oracles er =
      .ok (esem (ctxOf zkp d pt oracles er) b)) :
    evaluate zkp (exprSub a b) d pt oracles er =
      .ok (esem (ctxOf zkp d pt oracles er) (exprSub a b)) := by
  simp only [exprSub, evaluate, h1, h2, except_bind_ok]
  rfl

theorem evalsTo_constant {zkp : RD F → F → F} {d : RD F} {pt : F}
    {oracles : RandomOracles F}
    {er : ProofEvaluations F × ProofEvaluations F} (x : F) :
    evaluate zkp (.Constant x) d pt oracles er =
      .ok (esem (ctxOf zkp d pt oracles er) (.Constant x)) := rfl

/-! ### Every entry produced by `monomials` and `linearize` evaluates -/

theorem upsertWith_forall {K : Type} [DecidableEq K]
    (Q : K × Expr F → Prop) (key : K) (c : Expr F)
    (f : Expr F → Expr F → Expr F) (l : List (K × Expr F))
    (hl : ∀ p ∈ l, Q p)
    (hupd : ∀ v0, Q (key, v0) → Q (key, f v0 c))
    (hnew : Q (key, f (.Constant 0) c)) :
    ∀ p ∈ upsertWith key c f l, Q p := by
  induction l with
  | nil =>
    intro p hp
    simp only [upsertWith, List.mem_singleton] at hp
    subst hp
    exact hnew
  | cons p0 rest ih =>
    obtain ⟨k0, v0⟩ := p0
    intro p hp
    by_cases hk : k0 = key
    · subst hk
      simp only [upsertWith, eq_self_iff_true, if_true, List.mem_cons] at hp
      rcases hp with rfl | hp
      · exact hupd v0 (hl _ (List.mem_cons_self _ _))
      · exact hl _ (List.mem_cons_of_mem _ hp)
    · simp only [upsertWith, if_neg hk, List.mem_cons] at hp
      rcases hp with rfl | hp
      · exact hl _ (List.mem_cons_self _ _)
      · exact ih (fun q hq => hl q (List.mem_cons_of_mem _ hq)) p hp

theorem foldl_upsert_forall {K A : Type} [DecidableEq K]
    (Q : K × Expr F → Prop) (f : Expr F → Expr F → Expr F)
    (keyf : A → K) (cf : A → Expr F) (l2 : List A) :
    ∀ l1, (∀ p ∈ l1, Q p) →
    (∀ a ∈ l2, ∀ v0, Q (keyf a, v0) → Q (keyf a, f v0 (cf a))) →
    (∀ a ∈ l2, Q (keyf a, f (.Constant 0) (cf a))) →
    ∀ p ∈ l2.foldl (fun res a => upsertWith (keyf a) (cf a) f res) l1, Q p := by
  induction l2 with
  | nil =>
    intro l1 h1 _ _ p hp
    exact h1 p hp
  | cons a l2' ih =>
    intro l1 h1 hupd hnew p hp
    rw [List.foldl_cons] at hp
    exact ih (upsertWith (keyf a) (cf a) f l1)
      (upsertWith_forall Q _ _ f l1 h1
        (hupd a (List.mem_cons_self _ _))
        (hnew a (List.mem_cons_self _ _)))
      (fun a2 ha2 => hupd a2 (List.mem_cons_of_mem _ ha2))
      (fun a2 ha2 => hnew a2 (List.mem_cons_of_mem _ ha2)) p hp

theorem monomials_entries (zkp : RD F → F → F) (d : RD F) (pt : F)
    (oracles : RandomOracles F)
    (er : ProofEvaluations F × ProofEvaluations F) :
    ∀ (e : Expr F), (∃ v, evaluate zkp e d pt oracles er = .ok v) →
    ∀ mc ∈ monomials e,
      (evaluate zkp mc.2 d pt oracles er =
        .ok (esem (ctxOf zkp d pt oracles er) mc.2)) ∧
      ∀ vr ∈ mc.1, evaluate zkp (.Cell vr) d pt oracles er =
        .ok (esem (ctxOf zkp d pt oracles er) (.Cell vr)) := by
  intro e
  induction e with
  | Alpha p =>
    intro hok mc hmc
    simp only [monomials, List.mem_singleton] at hmc
    subst hmc
    exact ⟨evalsTo_of_ok hok, by simp⟩
  | Beta =>
    intro hok mc hmc
    simp only [monomials, List.mem_singleton] at hmc
    subst hmc
    exact ⟨evalsTo_of_ok hok, by simp⟩
  | Gamma =>
    intro hok mc hmc
    simp only [monomials, List.mem_singleton] at hmc
    subst hmc
    exact ⟨evalsTo_of_ok hok, by simp⟩
  | JointCombiner p =>
    intro hok mc hmc
    simp only [monomials, List.mem_singleton] at hmc
    subst hmc
    exact ⟨evalsTo_of_ok hok, by simp⟩
  | Constant x =>
    intro hok mc hmc
    simp only [monomials, List.mem_singleton] at hmc
    subst hmc
    exact ⟨evalsTo_of_ok hok, by simp⟩
  | ZkPolynomial =>
    intro hok mc hmc
    simp only [monomials, List.mem_singleton] at hmc
    subst hmc
    exact ⟨evalsTo_of_ok hok, by simp⟩
  | UnnormalizedLagrangeBasis i =>
    intro hok mc hmc
    simp only [monomials, List.mem_singleton] at hmc
    subst hmc
    exact ⟨evalsTo_of_ok hok, by simp⟩
  | Cell v =>
    intro hok mc hmc
    simp only [monomials, List.mem_singleton] at hmc
    subst hmc
    refine ⟨evalsTo_constant 1, ?_⟩
    intro vr hvr
    simp only [List.mem_singleton] at hvr
    subst hvr
    exact evalsTo_of_ok hok
  | Add e1 e2 ih1 ih2 =>
    intro hok
    obtain ⟨v, hv⟩ := hok
    obtain ⟨h1, h2⟩ := evaluate_add_ok hv
    have H1 := ih1 h1
    have H2 := ih2 h2
    intro mc hmc
    rw [monomials] at hmc
    refine foldl_upsert_forall _ exprAdd Prod.fst Prod.snd (monomials e2)
      (monomials e1) H1 ?_ ?_ mc hmc
    · intro a ha v0 hv0
      exact ⟨evalsTo_exprAdd hv0.1 (H2 a ha).1, hv0.2⟩
    · intro a ha
      exact ⟨evalsTo_exprAdd (evalsTo_constant 0) (H2 a ha).1, (H2 a ha).2⟩
  | Sub e1 e2 ih1 ih2 =>
    intro hok
    obtain ⟨v, hv⟩ := hok
    obtain ⟨h1, h2⟩ := evaluate_sub_ok hv
    have H1 := ih1 h1
    have H2 := ih2 h2
    intro mc hmc
    rw [monomials] at hmc
    refine foldl_upsert_forall _ exprSub Prod.fst Prod.snd (monomials e2)
      (monomials e1) H1 ?_ ?_ mc hmc
    · intro a ha v0 hv0
      exact ⟨evalsTo_exprSub hv0.1 (H2 a ha).1, hv0.2⟩
    · intro a ha
      exact ⟨evalsTo_exprSub (evalsTo_constant 0) (H2 a ha).1, (H2 a ha).2⟩
  | Mul e1 e2 ih1 ih2 =>
    intro hok
    obtain ⟨v, hv⟩ := hok
    obtain ⟨h1, h2⟩ := evaluate_mul_ok hv
    have H1 := ih1 h1
    have H2 := ih2 h2
    intro mc hmc
    rw [monomials] at hmc
    have main : ∀ (l1 : List (List Variable × Expr F)),
        (∀ mc1 ∈ l1,
          (evaluate zkp mc1.2 d pt oracles er =
            .ok (esem (ctxOf zkp d pt oracles er) mc1.2)) ∧
          ∀ vr ∈ mc1.1, evaluate zkp (.Cell vr) d pt oracles er =
            .ok (esem (ctxOf zkp d pt oracles er) (.Cell vr))) →
        ∀ res, (∀ p ∈ res,
          (evaluate zkp p.2 d pt oracles er =
            .ok (esem (ctxOf zkp d pt oracles er) p.2)) ∧
          ∀ vr ∈ p.1, evaluate zkp (.Cell vr) d pt oracles er =
            .ok (esem (ctxOf zkp d pt oracles er) (.Cell vr))) →
        ∀ p ∈ l1.foldl
          (fun res mc1 =>
            (monomials e2).foldl
              (fun res mc2 =>
                upsertWith (sortVars (mc1.1 ++ mc2.1)) (exprMul mc1.2 mc2.2)
                  exprAdd res) res) res,
          (evaluate zkp p.2 d pt oracles er =
            .ok (esem (ctxOf zkp d pt oracles er) p.2)) ∧
          ∀ vr ∈ p.1, evaluate zkp (.Cell vr) d pt oracles er =
            .ok (esem (ctxOf zkp d pt oracles er) (.Cell vr)) := by
      intro l1
      induction l1 with
      | nil =>
        intro _ res hres p hp
        exact hres p hp
      | cons mc1 l1' ihl =>
        intro hL res hres p hp
        rw [List.foldl_cons] at hp
        refine ihl (fun q hq => hL q (List.mem_cons_of_mem _ hq)) _ ?_ p hp
        refine foldl_upsert_forall _ exprAdd
          (fun mc2 => sortVars (mc1.1 ++ mc2.1))
          (fun mc2 => exprMul mc1.2 mc2.2) (monomials e2) res hres ?_ ?_
        · intro a ha v0 hv0
          exact ⟨evalsTo_exprAdd hv0.1
            (evalsTo_exprMul (hL mc1 (List.mem_cons_self _ _)).1
              (H2 a ha).1), hv0.2⟩
        · intro a ha
          constructor
          · exact evalsTo_exprAdd (evalsTo_constant 0)
              (evalsTo_exprMul (hL mc1 (List.mem_cons_self _ _)).1
                (H2 a ha).1)
          · intro vr hvr
            have hmem : vr ∈ mc1.1 ++ a.1 :=
              (List.perm_insertionSort varLe (mc1.1 ++ a.1)).mem_iff.1 hvr
            rcases List.mem_append.1 hmem with hin | hin
            · exact (hL mc1 (List.mem_cons_self _ _)).2 vr hin
            · exact (H2 a ha).2 vr hin
    exact main (monomials e1) H1 [] (by simp) mc hmc

theorem evalsTo_foldl_mul_cells {zkp : RD F → F → F} {d : RD F} {pt : F}
    {oracles : RandomOracles F}
    {er : ProofEvaluations F × ProofEvaluations F} (c : Expr F)
    (l : List Variable)
    (hc : evaluate zkp c d pt oracles er =
      .ok (esem (ctxOf zkp d pt oracles er) c))
    (hl : ∀ v ∈ l, evaluate zkp (.Cell v) d pt oracles er =
      .ok (esem (ctxOf zkp d pt oracles er) (.Cell v))) :
    evaluate zkp (l.foldl (fun acc v => exprMul acc (.Cell v)) c) d pt
        oracles er =
      .ok (esem (ctxOf zkp d pt oracles er)
        (l.foldl (fun acc v => exprMul acc (.Cell v)) c)) := by
  induction l generalizing c with
  | nil => exact hc
  | cons v rest ih =>
    rw [List.foldl_cons]
    exact ih (exprMul c (.Cell v))
      (evalsTo_exprMul hc (hl v (List.mem_cons_self _ _)))
      (fun v2 hv2 => hl v2 (List.mem_cons_of_mem _ hv2))

theorem linStep_entries {zkp : RD F → F → F} {d : RD F} {pt : F}
    {oracles : RandomOracles F}
    {er : ProofEvaluations F × ProofEvaluations F} (S : List Column)
    (st st' : Expr F × List (Column × Expr F)) (mc : List Variable × Expr F)
    (hstep : linStep S st mc = .ok st')
    (hmc : (evaluate zkp mc.2 d pt oracles er =
        .ok (esem (ctxOf zkp d pt oracles er) mc.2)) ∧
      ∀ vr ∈ mc.1, evaluate zkp (.Cell vr) d pt oracles er =
        .ok (esem (ctxOf zkp d pt oracles er) (.Cell vr)))
    (hst : (evaluate zkp st.1 d pt oracles er =
        .ok (esem (ctxOf zkp d pt oracles er) st.1)) ∧
      ∀ p ∈ st.2,
        (evaluate zkp p.2 d pt oracles er =
          .ok (esem (ctxOf zkp d pt oracles er) p.2)) ∧
        evaluate zkp (.Cell ⟨p.1, .Curr⟩) d pt oracles er =
          .ok (esem (ctxOf zkp d pt oracles er) (.Cell ⟨p.1, .Curr⟩))) :
    (evaluate zkp st'.1 d pt oracles er =
      .ok (esem (ctxOf zkp d pt oracles er) st'.1)) ∧
    ∀ p ∈ st'.2,
      (evaluate zkp p.2 d pt oracles er =
        .ok (esem (ctxOf zkp d pt oracles er) p.2)) ∧
      evaluate zkp (.Cell ⟨p.1, .Curr⟩) d pt oracles er =
        .ok (esem (ctxOf zkp d pt oracles er) (.Cell ⟨p.1, .Curr⟩)) := by
  simp only [linStep] at hstep
  have hc : evaluate zkp
      ((mc.1.partition (fun v => S.contains v.col)).1.foldl
        (fun acc v => exprMul acc (.Cell v)) mc.2) d pt oracles er =
      .ok (esem (ctxOf zkp d pt oracles er)
        ((mc.1.partition (fun v => S.contains v.col)).1.foldl
          (fun acc v => exprMul acc (.Cell v)) mc.2)) := by
    refine evalsTo_foldl_mul_cells mc.2 _ hmc.1 ?_
    intro v hv
    refine hmc.2 v ?_
    rw [List.partition_eq_filter_filter] at hv
    exact List.mem_of_mem_filter hv
  rcases hp : (mc.1.partition (fun v => S.contains v.col)).2 with _ | ⟨v, rest⟩
  · rw [hp] at hstep
    rw [Except.ok.injEq] at hstep
    subst hstep
    exact ⟨evalsTo_exprAdd hst.1 hc, hst.2⟩
  · rcases rest with _ | ⟨v2, rest2⟩
    · rw [hp] at hstep
      obtain ⟨vcol, vrow⟩ := v
      cases vrow with
      | Next => simp at hstep
      | Curr =>
        rw [Except.ok.injEq] at hstep
        subst hstep
        refine ⟨hst.1, ?_⟩
        have hvmem : (⟨vcol, .Curr⟩ : Variable) ∈ mc.1 := by
          have : (⟨vcol, .Curr⟩ : Variable) ∈
              (mc.1.partition (fun v => S.contains v.col)).2 := by
            rw [hp]
            exact List.mem_cons_self _ _
          rw [List.partition_eq_filter_filter] at this
          exact List.mem_of_mem_filter this
        have hcell := hmc.2 _ hvmem
        refine upsertWith_forall _ vcol _ exprAdd st.2 hst.2 ?_ ?_
        · intro v0 hv0
          exact ⟨evalsTo_exprAdd hv0.1 hc, hv0.2⟩
        · exact ⟨evalsTo_exprAdd (evalsTo_constant 0) hc, hcell⟩
    · rw [hp] at hstep
      simp at hstep

theorem linearizeFrom_entries {zkp : RD F → F → F} {d : RD F} {pt : F}
    {oracles : RandomOracles F}
    {er : ProofEvaluations F × ProofEvaluations F}
    (ms : List (List Variable × Expr F)) (S : List Column)
    (lin : Linearization F)
    (hms : ∀ mc ∈ ms,
      (evaluate zkp mc.2 d pt oracles er =
        .ok (esem (ctxOf zkp d pt oracles er) mc.2)) ∧
      ∀ vr ∈ mc.1, evaluate zkp (.Cell vr) d pt oracles er =
        .ok (esem (ctxOf zkp d pt oracles er) (.Cell vr)))
    (h : linearizeFrom ms S = .ok lin) :
    (evaluate zkp lin.constant_term d pt oracles er =
      .ok (esem (ctxOf zkp d pt oracles er) lin.constant_term)) ∧
    ∀ p ∈ lin.index_terms,
      (evaluate zkp p.2 d pt oracles er =
        .ok (esem (ctxOf zkp d pt oracles er) p.2)) ∧
      evaluate zkp (.Cell ⟨p.1, .Curr⟩) d pt oracles er =
        .ok (esem (ctxOf zkp d pt oracles er) (.Cell ⟨p.1, .Curr⟩)) := by
  unfold linearizeFrom at h
  have main : ∀ (ms' : List (List Variable × Expr F)),
      (∀ mc ∈ ms',
        (evaluate zkp mc.2 d pt oracles er =
          .ok (esem (ctxOf zkp d pt oracles er) mc.2)) ∧
        ∀ vr ∈ mc.1, evaluate zkp (.Cell vr) d pt oracles er =
          .ok (esem (ctxOf zkp d pt oracles er) (.Cell vr))) →
      ∀ st st', ms'.foldlM (linStep S) st = .ok st' →
      ((evaluate zkp st.1 d pt oracles er =
          .ok (esem (ctxOf zkp d pt oracles er) st.1)) ∧
        ∀ p ∈ st.2,
          (evaluate zkp p.2 d pt oracles er =
            .ok (esem (ctxOf zkp d pt oracles er) p.2)) ∧
          evaluate zkp (.Cell ⟨p.1, .Curr⟩) d pt oracles er =
            .ok (esem (ctxOf zkp d pt oracles er) (.Cell ⟨p.1, .Curr⟩))) →
      (evaluate zkp st'.1 d pt oracles er =
        .ok (esem (ctxOf zkp d pt oracles er) st'.1)) ∧
      ∀ p ∈ st'.2,
        (evaluate zkp p.2 d pt oracles er =
          .ok (esem (ctxOf zkp d pt oracles er) p.2)) ∧
        evaluate zkp (.Cell ⟨p.1, .Curr⟩) d pt oracles er =
          .ok (esem (ctxOf zkp d pt oracles er) (.Cell ⟨p.1, .Curr⟩)) := by
    intro ms'
    induction ms' with
    | nil =>
      intro _ st st' hfold hst
      simp only [List.foldlM_nil, pure, Except.pure] at hfold
      rw [Except.ok.injEq] at hfold
      subst hfold
      exact hst
    | cons mc rest ih =>
      intro hall st st' hfold hst
      rw [List.foldlM_cons] at hfold
      cases hstep : linStep S st mc with
      | error e1 => rw [hstep, except_bind_err] at hfold; simp at hfold
      | ok st1 =>
        rw [hstep, except_bind_ok] at hfold
        exact ih (fun q hq => hall q (List.mem_cons_of_mem _ hq)) st1 st' hfold
          (linStep_entries S st st1 mc hstep
            (hall mc (List.mem_cons_self _ _)) hst)
  cases hf : ms.foldlM (linStep S) ((Expr.Constant 0 : Expr F), []) with
  | error e1 => rw [hf, except_bind_err] at h; simp at h
  | ok st =>
    rw [hf, except_bind_ok] at h
    rw [Except.ok.injEq] at h
    subst h
    exact main ms hms _ _ hf ⟨evalsTo_constant 0, by simp⟩

theorem mapM_ok_forall {A : Type} (g : A → Except RunError F) (h : A → F)
    (l : List A) (H : ∀ a ∈ l, g a = .ok (h a)) :
    l.mapM g = .ok (l.map h) := by
  induction l with
  | nil => rfl
  | cons a rest ih =>
    simp only [List.mapM_cons, H a (List.mem_cons_self _ _),
      ih (fun b hb => H b (List.mem_cons_of_mem _ hb)), List.map_cons]
    rfl

/-- C4: if `evaluate` succeeds on `e` at a point and `linearize(e, S)`
succeeds, then the constant term evaluates, every index term evaluates,
and (constant term) + Σ (index term)·(column value from the evaluations
record) reproduces the value of `e`. -/
theorem c4_linearize_correct (K : Type) [Field K] [DecidableEq K]
    (zkp : RD K → K → K) (e : Expr K) (S : List Column) (d : RD K) (pt : K)
    (oracles : RandomOracles K)
    (er : ProofEvaluations K × ProofEvaluations K) (v : K)
    (lin : Linearization K)
    (hev : evaluate zkp e d pt oracles er = .ok v)
    (hlin : linearize e S = .ok lin) :
    ∃ c ts, evaluate zkp lin.constant_term d pt oracles er = .ok c ∧
      lin.index_terms.mapM (fun p => do
        let t ← evaluate zkp p.2 d pt oracles er
        let w ← evaluate zkp (.Cell ⟨p.1, .Curr⟩) d pt oracles er
        pure (t * w)) = .ok ts ∧
      c + ts.sum = v := by
  have hents := monomials_entries zkp d pt oracles er e ⟨v, hev⟩
  have hgood := linearizeFrom_entries (monomials e) S lin hents hlin
  refine ⟨esem (ctxOf zkp d pt oracles er) lin.constant_term,
    lin.index_terms.map (fun p => esem (ctxOf zkp d pt oracles er) p.2 *
      (ctxOf zkp d pt oracles er).cell ⟨p.1, .Curr⟩), hgood.1, ?_, ?_⟩
  · refine mapM_ok_forall _ _ lin.index_terms ?_
    intro p hp
    rw [(hgood.2 p hp).1, except_bind_ok, (hgood.2 p hp).2, except_bind_ok]
    rfl
  · have hval := linearizeFrom_ok_val (ctxOf zkp d pt oracles er)
      (monomials e) S lin hlin
    rw [msum_monomials] at hval
    have hsum : (lin.index_terms.map
        (fun p => esem (ctxOf zkp d pt oracles er) p.2 *
          (ctxOf zkp d pt oracles er).cell ⟨p.1, .Curr⟩)).sum =
        colTermSum (ctxOf zkp d pt oracles er) lin.index_terms := rfl
    rw [hsum, hval,
      evaluate_ok_esem zkp d pt oracles er e v hev]

/-- Witness for C4 over `ZMod 5`: `e = Cell(Witness 0)·Cell(Z)`,
`S = {Witness 0}`, with `w₀ = 2`, `z = 3` in the record at the point. -/
theorem c4_linearize_correct_witness :
    ∃ c ts, evaluate (fun _ _ => 0)
        ((⟨.Constant (0 : ZMod 5),
          [(Column.Z, .Cell ⟨.Witness 0, .Curr⟩)]⟩ :
            Linearization (ZMod 5)).constant_term)
        ⟨2, 1⟩ 1 ⟨0, 0, 0, 0, 0, 0⟩
        (⟨fun _ => 2, 3, fun _ => 0, 0, 0⟩,
         ⟨fun _ => 0, 0, fun _ => 0, 0, 0⟩) = .ok c ∧
      ((⟨.Constant (0 : ZMod 5),
        [(Column.Z, .Cell ⟨.Witness 0, .Curr⟩)]⟩ :
          Linearization (ZMod 5)).index_terms).mapM (fun p => do
        let t ← evaluate (fun _ _ => 0) p.2 ⟨2, 1⟩ 1 ⟨0, 0, 0, 0, 0, 0⟩
          (⟨fun _ => 2, 3, fun _ => 0, 0, 0⟩,
           ⟨fun _ => 0, 0, fun _ => 0, 0, 0⟩)
        let w ← evaluate (fun _ _ => 0) (.Cell ⟨p.1, .Curr⟩) ⟨2, 1⟩ 1
          ⟨0, 0, 0, 0, 0, 0⟩
          (⟨fun _ => 2, 3, fun _ => 0, 0, 0⟩,
           ⟨fun _ => 0, 0, fun _ => 0, 0, 0⟩)
        pure (t * w)) = .ok ts ∧
      c + ts.sum = 1 :=
  c4_linearize_correct (ZMod 5) (fun _ _ => 0)
    (Expr.Mul (.Cell ⟨.Witness 0, .Curr⟩) (.Cell ⟨.Z, .Curr⟩))
    [Column.Witness 0] ⟨2, 1⟩ 1 ⟨0, 0, 0, 0, 0, 0⟩
    (⟨fun _ => 2, 3, fun _ => 0, 0, 0⟩, ⟨fun _ => 0, 0, fun _ => 0, 0, 0⟩)
    1 ⟨.Constant 0, [(Column.Z, .Cell ⟨.Witness 0, .Curr⟩)]⟩
    (by decide) (by decide)

/-- C5: `linearize` processes each monomial `(m, c)` by partitioning its
variables into evaluated (column in the set) and unevaluated, folding the
evaluated cells into the coefficient, and then: 0 unevaluated → the term
joins the constant part; 1 unevaluated at Curr → it accumulates into
`index_terms` at that column; 1 unevaluated at Next → recoverable error
mentioning the needed Next-row value; more than one → recoverable
"Linearization failed".  The last three conjuncts check the spec's
concrete scenarios end-to-end over `ZMod 5`. -/
theorem c5_linearize_monomial_processing (K : Type) [Field K]
    [DecidableEq K] (S : List Column)
    (st : Expr K × List (Column × Expr K)) (m : List Variable) (co : Expr K) :
    ((m.partition (fun v => S.contains v.col)).2 = [] →
      linStep S st (m, co) = .ok
        (exprAdd st.1
          ((m.partition (fun v => S.contains v.col)).1.foldl
            (fun acc v => exprMul acc (.Cell v)) co), st.2)) ∧
    (∀ col, (m.partition (fun v => S.contains v.col)).2 = [⟨col, .Curr⟩] →
      linStep S st (m, co) = .ok
        (st.1, upsertWith col
          ((m.partition (fun v => S.contains v.col)).1.foldl
            (fun acc v => exprMul acc (.Cell v)) co) exprAdd st.2)) ∧
    (∀ col, (m.partition (fun v => S.contains v.col)).2 = [⟨col, .Next⟩] →
      linStep S st (m, co) = .error
        (.err "Linearization failed (needed polynomial value at \"next\" row)")) ∧
    (∀ v1 v2 rest,
      (m.partition (fun v => S.contains v.col)).2 = v1 :: v2 :: rest →
      linStep S st (m, co) = .error (.err "Linearization failed")) ∧
    (linearize ((Expr.Mul (.Cell ⟨.Witness 0, .Curr⟩)
          (.Cell ⟨.Z, .Curr⟩)) : Expr (ZMod 5))
        ([] : List Column) = .error (.err "Linearization failed")) ∧
    (linearize (Expr.Mul (.Cell ⟨.Witness 0, .Curr⟩) (.Cell ⟨.Z, .Curr⟩))
        [Column.Witness 0] =
      .ok ⟨.Constant (0 : ZMod 5),
        [(Column.Z, .Cell ⟨.Witness 0, .Curr⟩)]⟩) ∧
    (linearize ((Expr.Mul (.Cell ⟨.Witness 0, .Curr⟩)
          (.Cell ⟨.Z, .Next⟩)) : Expr (ZMod 5))
        [Column.Witness 0] =
      .error
        (.err "Linearization failed (needed polynomial value at \"next\" row)")) := by
  refine ⟨?_, ?_, ?_, ?_, by decide, by decide, by decide⟩
  · intro hp
    simp only [linStep, hp]
  · intro col hp
    simp only [linStep, hp]
  · intro col hp
    simp only [linStep, hp]
  · intro v1 v2 rest hp
    simp only [linStep, hp]

/-- Witness for C5 over `ZMod 5`, exercising each of the four monomial
shapes at a concrete state. -/
theorem c5_linearize_monomial_processing_witness :
    (linStep ([] : List Column) (Expr.Constant (0 : ZMod 5), [])
        ([], .Beta) = .ok
        (exprAdd (Expr.Constant 0)
          ((([] : List Variable).partition
              (fun v => ([] : List Column).contains v.col)).1.foldl
            (fun acc v => exprMul acc (.Cell v)) .Beta), [])) ∧
    (linStep ([] : List Column) (Expr.Constant (0 : ZMod 5), [])
        ([⟨.Z, .Curr⟩], .Beta) = .ok
        (Expr.Constant 0, upsertWith Column.Z
          ((([⟨.Z, .Curr⟩] : List Variable).partition
              (fun v => ([] : List Column).contains v.col)).1.foldl
            (fun acc v => exprMul acc (.Cell v)) .Beta) exprAdd [])) ∧
    (linStep ([] : List Column) (Expr.Constant (0 : ZMod 5), [])
        ([⟨.Z, .Next⟩], .Beta) = .error
        (.err "Linearization failed (needed polynomial value at \"next\" row)")) ∧
    (linStep ([] : List Column) (Expr.Constant (0 : ZMod 5), [])
        ([⟨.Z, .Curr⟩, ⟨.LookupAggreg, .Curr⟩], .Beta) =
      .error (.err "Linearization failed")) :=
  ⟨(c5_linearize_monomial_processing (ZMod 5) [] (.Constant 0, []) []
      .Beta).1 (by decide),
   (c5_linearize_monomial_processing (ZMod 5) [] (.Constant 0, [])
      [⟨.Z, .Curr⟩] .Beta).2.1 .Z (by decide),
   (c5_linearize_monomial_processing (ZMod 5) [] (.Constant 0, [])
      [⟨.Z, .Next⟩] .Beta).2.2.1 .Z (by decide),
   (c5_linearize_monomial_processing (ZMod 5) [] (.Constant 0, [])
      [⟨.Z, .Curr⟩, ⟨.LookupAggreg, .Curr⟩] .Beta).2.2.2.1
      ⟨.Z, .Curr⟩ ⟨.LookupAggreg, .Curr⟩ [] (by decide)⟩

/-- C9 counterexample: the order of `index_terms` follows the hash map's
iteration order, which is unspecified.  Running the `linearize` loop over
the two iteration orders of the monomials of `Cell(Witness 0) + Cell(Z)`
(with nothing evaluated) yields different `Linearization` values — the
two single-entry columns appear in opposite orders. -/
theorem c9_determinism_counterexample :
    monomials (Expr.Add (.Cell ⟨.Witness 0, .Curr⟩) (.Cell ⟨.Z, .Curr⟩)) =
      [([⟨.Witness 0, .Curr⟩], .Constant (1 : ZMod 5)),
       ([⟨.Z, .Curr⟩], .Constant 1)] ∧
    List.Perm
      [(([⟨.Z, .Curr⟩] : List Variable), (.Constant 1 : Expr (ZMod 5))),
       ([⟨.Witness 0, .Curr⟩], .Constant 1)]
      (monomials (Expr.Add (.Cell ⟨.Witness 0, .Curr⟩)
        (.Cell ⟨.Z, .Curr⟩))) ∧
    linearizeFrom
        [(([⟨.Witness 0, .Curr⟩] : List Variable),
          (.Constant 1 : Expr (ZMod 5))),
         ([⟨.Z, .Curr⟩], .Constant 1)] [] ≠
      linearizeFrom
        [([⟨.Z, .Curr⟩], .Constant 1),
         ([⟨.Witness 0, .Curr⟩], .Constant 1)] [] := by
  refine ⟨by decide, by decide, by decide⟩

/-! ### Keys of the index-term map -/

theorem upsertWith_keys {K : Type} [DecidableEq K] (key : K) (c : Expr F)
    (f : Expr F → Expr F → Expr F) (l : List (K × Expr F)) :
    (upsertWith key c f l).map Prod.fst =
      if key ∈ l.map Prod.fst then l.map Prod.fst
      else l.map Prod.fst ++ [key] := by
  induction l with
  | nil => simp [upsertWith]
  | cons p0 rest ih =>
    obtain ⟨k0, v0⟩ := p0
    by_cases hk : k0 = key
    · subst hk
      simp [upsertWith]
    · simp only [upsertWith, if_neg hk, List.map_cons, ih]
      by_cases hmem : key ∈ rest.map Prod.fst
      · rw [if_pos hmem,
          if_pos (List.mem_cons_of_mem _ hmem)]
      · rw [if_neg hmem, if_neg ?hnc, List.cons_append]
        case hnc =>
          rw [List.mem_cons]
          rintro (h' | h')
          · exact hk h'.symm
          · exact hmem h'

theorem upsertWith_keys_nodup {K : Type} [DecidableEq K] (key : K)
    (c : Expr F) (f : Expr F → Expr F → Expr F) (l : List (K × Expr F))
    (h : (l.map Prod.fst).Nodup) :
    ((upsertWith key c f l).map Prod.fst).Nodup := by
  rw [upsertWith_keys]
  split_ifs with hm
  · exact h
  · exact List.Nodup.append h (List.nodup_singleton key)
      (List.disjoint_singleton.2 hm)

theorem upsertWith_keys_toFinset {K : Type} [DecidableEq K] (key : K)
    (c : Expr F) (f : Expr F → Expr F → Expr F) (l : List (K × Expr F)) :
    ((upsertWith key c f l).map Prod.fst).toFinset =
      insert key (l.map Prod.fst).toFinset := by
  rw [upsertWith_keys]
  split_ifs with hm
  · exact (Finset.insert_eq_self.2 (List.mem_toFinset.2 hm)).symm
  · rw [List.toFinset_append]
    ext x
    simp [or_comm]

theorem linStep_keys (S : List Column)
    (st st' : Expr F × List (Column × Expr F)) (mc : List Variable × Expr F)
    (h : linStep S st mc = .ok st') :
    ((st.2.map Prod.fst).Nodup → (st'.2.map Prod.fst).Nodup) ∧
    (st'.2.map Prod.fst).toFinset =
      (st.2.map Prod.fst).toFinset ∪ (qualCol S mc).toFinset := by
  simp only [linStep] at h
  rcases hp : (mc.1.partition (fun v => S.contains v.col)).2 with _ | ⟨v, rest⟩
  · rw [hp] at h
    rw [Except.ok.injEq] at h
    subst h
    rw [qualCol, hp]
    simp
  · rcases rest with _ | ⟨v2, rest2⟩
    · rw [hp] at h
      obtain ⟨vcol, vrow⟩ := v
      cases vrow with
      | Next => simp at h
      | Curr =>
        rw [Except.ok.injEq] at h
        subst h
        rw [qualCol, hp]
        refine ⟨fun hn => upsertWith_keys_nodup _ _ _ _ hn, ?_⟩
        rw [upsertWith_keys_toFinset]
        ext x
        simp [Option.toFinset, or_comm]
    · rw [hp] at h
      simp at h

theorem foldlM_linStep_keys (S : List Column)
    (ms : List (List Variable × Expr F)) :
    ∀ st st', ms.foldlM (linStep S) st = .ok st' →
    ((st.2.map Prod.fst).Nodup → (st'.2.map Prod.fst).Nodup) ∧
    (st'.2.map Prod.fst).toFinset =
      (st.2.map Prod.fst).toFinset ∪
        (ms.filterMap (qualCol S)).toFinset := by
  induction ms with
  | nil =>
    intro st st' h
    simp only [List.foldlM_nil, pure, Except.pure] at h
    rw [Except.ok.injEq] at h
    subst h
    simp
  | cons mc rest ih =>
    intro st st' h
    rw [List.foldlM_cons] at h
    cases hstep : linStep S st mc with
    | error e1 => rw [hstep, except_bind_err] at h; simp at h
    | ok st1 =>
      rw [hstep, except_bind_ok] at h
      obtain ⟨hn1, hf1⟩ := linStep_keys S st st1 mc hstep
      obtain ⟨hn2, hf2⟩ := ih st1 st' h
      refine ⟨fun hn => hn2 (hn1 hn), ?_⟩
      rw [hf2, hf1, List.filterMap_cons]
      cases hq : qualCol S mc with
      | none => simp [Option.toFinset]
      | some a =>
        ext x
        simp [Option.toFinset, List.toFinset_cons]
        tauto

/-- C9 (amended): for ANY two iteration orders of the monomial map
(permutations of each other), successful linearization yields index-term
column lists that are permutations of each other — the column set is
canonical, but the order follows the hash map's unspecified iteration
order, so value-level determinism across processes does not hold (see the
counterexample). -/
theorem c9_determinism_amended (K : Type) [Field K] [DecidableEq K]
    (ms1 ms2 : List (List Variable × Expr K)) (S : List Column)
    (l1 l2 : Linearization K) (hperm : ms1.Perm ms2)
    (h1 : linearizeFrom ms1 S = .ok l1)
    (h2 : linearizeFrom ms2 S = .ok l2) :
    (l1.index_terms.map Prod.fst).Perm (l2.index_terms.map Prod.fst) := by
  unfold linearizeFrom at h1 h2
  cases hf1 : ms1.foldlM (linStep S) ((Expr.Constant 0 : Expr K), []) with
  | error e1 => rw [hf1, except_bind_err] at h1; simp at h1
  | ok st1 =>
    rw [hf1, except_bind_ok] at h1
    rw [Except.ok.injEq] at h1
    subst h1
    cases hf2 : ms2.foldlM (linStep S) ((Expr.Constant 0 : Expr K), []) with
    | error e2 => rw [hf2, except_bind_err] at h2; simp at h2
    | ok st2 =>
      rw [hf2, except_bind_ok] at h2
      rw [Except.ok.injEq] at h2
      subst h2
      obtain ⟨hn1, hfin1⟩ := foldlM_linStep_keys S ms1 _ _ hf1
      obtain ⟨hn2, hfin2⟩ := foldlM_linStep_keys S ms2 _ _ hf2
      refine List.perm_of_nodup_nodup_toFinset_eq
        (hn1 (by simp)) (hn2 (by simp)) ?_
      rw [hfin1, hfin2,
        List.toFinset_eq_of_perm _ _ (hperm.filterMap (qualCol S))]

/-- Witness for the amended C9: the two iteration orders of the
counterexample yield index-term key lists `[Witness 0, Z]` and
`[Z, Witness 0]`, which are indeed permutations of each other. -/
theorem c9_determinism_amended_witness :
    (([(([⟨.Witness 0, .Curr⟩] : List Variable),
        (.Constant 1 : Expr (ZMod 5))),
       ([⟨.Z, .Curr⟩], .Constant 1)]).Perm
      [([⟨.Z, .Curr⟩], .Constant 1),
       ([⟨.Witness 0, .Curr⟩], .Constant 1)]) ∧
    ((Linearization.index_terms
        ⟨.Constant (0 : ZMod 5),
         [(Column.Witness 0, .Constant 1), (Column.Z, .Constant 1)]⟩).map
        Prod.fst).Perm
      ((Linearization.index_terms
        ⟨.Constant (0 : ZMod 5),
         [(Column.Z, .Constant 1), (Column.Witness 0, .Constant 1)]⟩).map
        Prod.fst) :=
  ⟨by decide,
   c9_determinism_amended (ZMod 5)
    [([⟨.Witness 0, .Curr⟩], .Constant 1), ([⟨.Z, .Curr⟩], .Constant 1)]
    [([⟨.Z, .Curr⟩], .Constant 1), ([⟨.Witness 0, .Curr⟩], .Constant 1)]
    []
    ⟨.Constant 0, [(Column.Witness 0, .Constant 1), (Column.Z, .Constant 1)]⟩
    ⟨.Constant 0, [(Column.Z, .Constant 1), (Column.Witness 0, .Constant 1)]⟩
    (by decide) (by decide) (by decide)⟩


/-- The sequential grand-product loop maintains: after `t` steps the
first `t + 1` entries hold the closed form `zClosed` and the remaining
entries still hold the batch-inverted denominators. -/
theorem permAggreg_fold_inv (K : Type) [Field K] [DecidableEq K] (n : Nat)
    (witness : Nat → K) (sigmal : Fin 3 → Nat → K) (sid : Nat → K)
    (r o beta gamma : K) (t : Nat) (ht : t ≤ n) :
    (List.range t).foldl
      (fun z j =>
        z.set (j + 1) (z.getD (j + 1) 0 *
          (z.getD j 0 * permNum n witness sid r o beta gamma j)))
      (1 :: batch_inversion ((List.range n).map (permDen n witness sigmal beta gamma))) =
    (List.range (t + 1)).map (zClosed n witness sigmal sid r o beta gamma) ++
      (List.range' t (n - t)).map
        (fun j => (permDen n witness sigmal beta gamma j)⁻¹) := by
  induction t with
  | zero =>
    simp only [List.range_zero, List.foldl_nil, batch_inversion, List.map_map,
      List.range_eq_range']
    simp [zClosed, Function.comp]
  | succ t ih =>
    have ht' : t ≤ n := Nat.le_of_succ_le ht
    rw [List.range_succ, List.foldl_append, List.foldl_cons, List.foldl_nil, ih ht']
    set A := (List.range (t + 1)).map (zClosed n witness sigmal sid r o beta gamma) with hA
    have hAlen : A.length = t + 1 := by simp [hA]
    have hnt : n - t = (n - (t + 1)) + 1 := by omega
    have hB : (List.range' t (n - t)).map
        (fun j => (permDen n witness sigmal beta gamma j)⁻¹) =
        (permDen n witness sigmal beta gamma t)⁻¹ ::
          (List.range' (t + 1) (n - (t + 1))).map
            (fun j => (permDen n witness sigmal beta gamma j)⁻¹) := by
      rw [hnt, List.range'_succ, List.map_cons]
    rw [hB]
    have hget1 : (A ++ (permDen n witness sigmal beta gamma t)⁻¹ ::
        (List.range' (t + 1) (n - (t + 1))).map
          (fun j => (permDen n witness sigmal beta gamma j)⁻¹)).getD (t + 1) 0 =
        (permDen n witness sigmal beta gamma t)⁻¹ := by
      rw [List.getD_append_right _ _ _ _ (by omega)]
      simp [hAlen]
    have hget0 : (A ++ (permDen n witness sigmal beta gamma t)⁻¹ ::
        (List.range' (t + 1) (n - (t + 1))).map
          (fun j => (permDen n witness sigmal beta gamma j)⁻¹)).getD t 0 =
        zClosed n witness sigmal sid r o beta gamma t := by
      rw [List.getD_append _ _ _ _ (by omega)]
      simp [hA, List.getD_eq_getElem?_getD, List.getElem?_map, List.getElem?_range
        (Nat.lt_succ_self t)]
    rw [hget1, hget0, List.set_append]
    rw [if_neg (by omega)]
    rw [hAlen, Nat.sub_self, List.set_cons_zero]
    rw [List.range_succ, List.map_append, List.append_assoc]
    simp [zClosed]

/-- The grand-product vector equals the closed form on all of
`0, …, n`. -/
theorem permAggregZ_eq (K : Type) [Field K] [DecidableEq K] (n : Nat)
    (witness : Nat → K) (sigmal : Fin 3 → Nat → K) (sid : Nat → K)
    (r o beta gamma : K) :
    permAggregZ n witness sigmal sid r o beta gamma =
      (List.range (n + 1)).map (zClosed n witness sigmal sid r o beta gamma) := by
  have h := permAggreg_fold_inv K n witness sigmal sid r o beta gamma n le_rfl
  simpa [permAggregZ, Nat.sub_self] using h

/-- Entry `j ≤ n` of the grand-product vector is `zClosed j`. -/
theorem permAggregZ_getD (K : Type) [Field K] [DecidableEq K] (n : Nat)
    (witness : Nat → K) (sigmal : Fin 3 → Nat → K) (sid : Nat → K)
    (r o beta gamma : K) (j : Nat) (hj : j ≤ n) :
    (permAggregZ n witness sigmal sid r o beta gamma).getD j 0 =
      zClosed n witness sigmal sid r o beta gamma j := by
  rw [permAggregZ_eq]
  simp [List.getD_eq_getElem?_getD, List.getElem?_map,
    List.getElem?_range (Nat.lt_succ_of_le hj)]

/-- **C6**: in `ProverProof::create` the grand-product vector has
length `n + 1`, starts at `z[0] = 1`, and satisfies the recursion
`z[j+1] = z[j] * (∏_col (witness[col][j] + sigma_id(col,j)*beta + gamma))
/ (∏_col (witness[col][j] + sigma(col,j)*beta + gamma))` for `j < n`
(the denominators inverted by the one batch inversion, whose zero ↦ zero
convention agrees with the field's `x / 0 = 0`); and the prover returns
the error `ProofCreation` exactly when the resulting `z[n]` is not 1,
otherwise the popped vector `z[0..n]` proceeds (to interpolation over H
plus a degree-2 random multiple of `Z_H`, outside this model). -/
theorem c6_grand_product (K : Type) [Field K] [DecidableEq K]
    (n : Nat) (witness : Nat → K) (sigmal : Fin 3 → Nat → K)
    (sid : Nat → K) (r o beta gamma : K) :
    (permAggregZ n witness sigmal sid r o beta gamma).length = n + 1 ∧
    (permAggregZ n witness sigmal sid r o beta gamma).getD 0 0 = 1 ∧
    (∀ j, j < n →
      (permAggregZ n witness sigmal sid r o beta gamma).getD (j + 1) 0 =
        (permAggregZ n witness sigmal sid r o beta gamma).getD j 0 *
          permNum n witness sid r o beta gamma j /
          permDen n witness sigmal beta gamma j) ∧
    (permAggregCheck n witness sigmal sid r o beta gamma =
        some (.error .ProofCreation) ↔
      (permAggregZ n witness sigmal sid r o beta gamma).getD n 0 ≠ 1) ∧
    ((permAggregZ n witness sigmal sid r o beta gamma).getD n 0 = 1 →
      permAggregCheck n witness sigmal sid r o beta gamma =
        some (.ok ((permAggregZ n witness sigmal sid r o beta gamma).dropLast))) := by
  have hz := permAggregZ_eq K n witness sigmal sid r o beta gamma
  have hlast : (permAggregZ n witness sigmal sid r o beta gamma).getLast? =
      some (zClosed n witness sigmal sid r o beta gamma n) := by
    rw [hz, List.range_succ, List.map_append, List.map_singleton, List.getLast?_concat]
  refine ⟨?_, ?_, ?_, ?_, ?_⟩
  · rw [hz]; simp
  · rw [permAggregZ_getD K n witness sigmal sid r o beta gamma 0 (Nat.zero_le n)]
    rfl
  · intro j hj
    rw [permAggregZ_getD K n witness sigmal sid r o beta gamma (j + 1) hj,
      permAggregZ_getD K n witness sigmal sid r o beta gamma j (Nat.le_of_lt hj)]
    show (permDen n witness sigmal beta gamma j)⁻¹ *
        (zClosed n witness sigmal sid r o beta gamma j *
          permNum n witness sid r o beta gamma j) = _
    rw [div_eq_mul_inv]
    ring
  · rw [permAggregCheck, hlast,
      permAggregZ_getD K n witness sigmal sid r o beta gamma n le_rfl]
    by_cases h1 : zClosed n witness sigmal sid r o beta gamma n = 1
    · simp [h1]
    · simp [h1]
  · intro h1
    rw [permAggregZ_getD K n witness sigmal sid r o beta gamma n le_rfl] at h1
    rw [permAggregCheck, hlast, h1]
    simp

/-- Witness for C6: a concrete instance over `ZMod 5` with `n = 1`,
exercising the recursion conjunct at `j = 0`. -/
theorem c6_grand_product_witness :
    0 < 1 ∧
    (permAggregZ 1 (fun _ => (0 : ZMod 5)) (fun _ _ => 1) (fun _ => 1) 1 1 1 1).getD
        (0 + 1) 0 =
      (permAggregZ 1 (fun _ => (0 : ZMod 5)) (fun _ _ => 1) (fun _ => 1) 1 1 1 1).getD 0 0 *
        permNum 1 (fun _ => (0 : ZMod 5)) (fun _ => 1) 1 1 1 1 0 /
        permDen 1 (fun _ => (0 : ZMod 5)) (fun _ _ => 1) 1 1 0 :=
  ⟨by decide,
    (c6_grand_product (ZMod 5) 1 (fun _ => 0) (fun _ _ => 1) (fun _ => 1) 1 1 1 1).2.2.1
      0 (by decide)⟩

/-- The doubling loop of `nextPow2` returns the smallest power of two
at least `n`, given enough fuel and a starting accumulator `2^t` below
which no power of two reaches `n`. -/
theorem nextPow2Go_spec (n : Nat) :
    ∀ (fuel t : Nat), n ≤ 2 ^ (t + fuel) → (∀ j, j < t → 2 ^ j < n) →
    ∃ k, nextPow2Go n fuel (2 ^ t) = 2 ^ k ∧ n ≤ 2 ^ k ∧
      ∀ j, n ≤ 2 ^ j → 2 ^ k ≤ 2 ^ j := by
  intro fuel
  induction fuel with
  | zero =>
    intro t hle hmin
    refine ⟨t, rfl, by simpa using hle, fun j hj => ?_⟩
    by_contra hc
    have hjt : j < t := by
      rcases Nat.lt_or_ge j t with h | h
      · exact h
      · exact absurd (Nat.pow_le_pow_right (by omega) h) hc
    exact absurd hj (Nat.not_le.2 (hmin j hjt))
  | succ fuel ih =>
    intro t hle hmin
    rw [nextPow2Go]
    by_cases hn : n ≤ 2 ^ t
    · rw [if_pos hn]
      refine ⟨t, rfl, hn, fun j hj => ?_⟩
      by_contra hc
      have hjt : j < t := by
        rcases Nat.lt_or_ge j t with h | h
        · exact h
        · exact absurd (Nat.pow_le_pow_right (by omega) h) hc
      exact absurd hj (Nat.not_le.2 (hmin j hjt))
    · rw [if_neg hn]
      have h2 : 2 * 2 ^ t = 2 ^ (t + 1) := by ring
      rw [h2]
      refine ih (t + 1) (by
        have he : t + 1 + fuel = t + (fuel + 1) := by omega
        rw [he]; exact hle) ?_
      intro j hj
      rcases Nat.lt_or_ge j t with h | h
      · exact hmin j h
      · have hjt : j = t := by omega
        subst hjt
        exact Nat.lt_of_not_le hn

/-- `nextPow2 n` is the smallest power of two at least `n`. -/
theorem nextPow2_spec (n : Nat) : IsSmallestPow2Geq (nextPow2 n) n := by
  have h1 : n ≤ 2 ^ (0 + n) := by simpa using (Nat.lt_two_pow n).le
  obtain ⟨k, hk, hle, hmin⟩ := nextPow2Go_spec n n 0 h1 (by omega)
  have hk' : nextPow2 n = 2 ^ k := by
    rw [nextPow2]
    simpa using hk
  exact ⟨⟨k, hk'⟩, by rw [hk']; exact hle, fun j hj => by rw [hk']; exact hmin j hj⟩

/-- Powers of two are fixed points of `nextPow2`. -/
theorem nextPow2_pow2 (i : Nat) : nextPow2 (2 ^ i) = 2 ^ i := by
  obtain ⟨⟨k, hk⟩, hge, hmin⟩ := nextPow2_spec (2 ^ i)
  have h1 := hmin i le_rfl
  omega

/-- `nextPow2` is idempotent. -/
theorem nextPow2_idem (n : Nat) : nextPow2 (nextPow2 n) = nextPow2 n := by
  obtain ⟨⟨k, hk⟩, -, -⟩ := nextPow2_spec n
  rw [hk, nextPow2_pow2]

/-- **C7**: whenever the field admits all four required power-of-two
subgroups, `EvaluationDomains::create` returns `Some` of the size
quadruple in which `|H|`, `|K|` and `|X|` are the smallest powers of
two at least `variables`, `nonzero_entries` and `public_inputs`
respectively, and `|B|` is the smallest power of two at least
`3*|K| - 3` (hence `|B| ≥ 3*|K| - 3`); if any of the four sizes has no
subgroup, `create` returns `None`; and concretely
`create(1000, 5, 2000)` (two-adicity 32) yields `|H| = 1024`,
`|K| = 2048`, `|B| = 8192`, `|X| = 8`. -/
theorem c7_domains_create (A vars pubInputs nonzeroEntries : Nat) :
    (nextPow2 vars ≤ 2 ^ A → nextPow2 pubInputs ≤ 2 ^ A →
      nextPow2 nonzeroEntries ≤ 2 ^ A →
      nextPow2 (nextPow2 nonzeroEntries * 3 - 3) ≤ 2 ^ A →
      EvaluationDomainsCreate A vars pubInputs nonzeroEntries =
        some (nextPow2 vars, nextPow2 nonzeroEntries,
          nextPow2 (nextPow2 nonzeroEntries * 3 - 3), nextPow2 pubInputs)) ∧
    (IsSmallestPow2Geq (nextPow2 vars) vars ∧
     IsSmallestPow2Geq (nextPow2 pubInputs) pubInputs ∧
     IsSmallestPow2Geq (nextPow2 nonzeroEntries) nonzeroEntries ∧
     IsSmallestPow2Geq (nextPow2 (nextPow2 nonzeroEntries * 3 - 3))
       (nextPow2 nonzeroEntries * 3 - 3)) ∧
    3 * nextPow2 nonzeroEntries - 3 ≤ nextPow2 (nextPow2 nonzeroEntries * 3 - 3) ∧
    (¬ (nextPow2 vars ≤ 2 ^ A ∧ nextPow2 pubInputs ≤ 2 ^ A ∧
        nextPow2 nonzeroEntries ≤ 2 ^ A ∧
        nextPow2 (nextPow2 nonzeroEntries * 3 - 3) ≤ 2 ^ A) →
      EvaluationDomainsCreate A vars pubInputs nonzeroEntries = none) ∧
    EvaluationDomainsCreate 32 1000 5 2000 = some (1024, 2048, 8192, 8) := by
  refine ⟨?_, ⟨nextPow2_spec vars, nextPow2_spec pubInputs,
      nextPow2_spec nonzeroEntries, nextPow2_spec _⟩, ?_, ?_, ?_⟩
  · intro hh hx hk hb
    simp [EvaluationDomainsCreate, compute_size_of_domain, domainNew, nextPow2_idem,
      hh, hx, hk, hb]
  · have h := (nextPow2_spec (nextPow2 nonzeroEntries * 3 - 3)).2.1
    omega
  · intro hfail
    by_cases hh : nextPow2 vars ≤ 2 ^ A
    · by_cases hx : nextPow2 pubInputs ≤ 2 ^ A
      · by_cases hk : nextPow2 nonzeroEntries ≤ 2 ^ A
        · have hb : ¬ nextPow2 (nextPow2 nonzeroEntries * 3 - 3) ≤ 2 ^ A := by
            tauto
          simp [EvaluationDomainsCreate, compute_size_of_domain, domainNew,
            nextPow2_idem, hh, hx, hk, hb]
        · simp [EvaluationDomainsCreate, compute_size_of_domain, domainNew,
            nextPow2_idem, hh, hx, hk]
      · simp [EvaluationDomainsCreate, compute_size_of_domain, domainNew, hh, hx]
    · simp [EvaluationDomainsCreate, compute_size_of_domain, domainNew, hh]
  · decide

/-- Witness for C7: the concrete instance of the success case at
two-adicity 32 with the spec's scenario (A) inputs. -/
theorem c7_domains_create_witness :
    nextPow2 1000 ≤ 2 ^ 32 ∧
    EvaluationDomainsCreate 32 1000 5 2000 =
      some (nextPow2 1000, nextPow2 2000, nextPow2 (nextPow2 2000 * 3 - 3),
        nextPow2 5) :=
  ⟨by decide,
    (c7_domains_create 32 1000 5 2000).1 (by decide) (by decide) (by decide)
      (by decide)⟩

/-- **C10**: in the 15-wire `ProverProof::create` the linearization
polynomial's own blinding scalar `blinding_f` is fixed to zero, so the
blinding commitment supplied for the `ft` polynomial in the opening
proof is the single unshifted scalar
`0 - (zeta_n - 1) * chunk_blinding(t_blind, zeta_n)` (where
`zeta_n = ζ^max_poly_size`) with no shifted part; it sits in the last
position of the assembled blinding column, and that position is
unchanged under any change of the `w` and `z` blindings — it depends
only on the blinding of `t`. -/
theorem c10_ft_blinding (K : Type) [Field K] [DecidableEq K]
    (prevNs : List Nat) (numWitnessCols numSigma : Nat)
    (w w' : Nat → PolyComm K) (z z' t : PolyComm K) (zetaN : K) :
    blinding_ft t zetaN =
      ⟨[(0 : K) - (zetaN - 1) * chunk_blinding t zetaN], none⟩ ∧
    (openingBlinders prevNs numWitnessCols numSigma w z t zetaN).getLast? =
      some ⟨[(0 : K) - (zetaN - 1) * chunk_blinding t zetaN], none⟩ ∧
    (openingBlinders prevNs numWitnessCols numSigma w z t zetaN).getLast? =
      (openingBlinders prevNs numWitnessCols numSigma w' z' t zetaN).getLast? := by
  have hlast : ∀ (w0 : Nat → PolyComm K) (z0 : PolyComm K),
      (openingBlinders prevNs numWitnessCols numSigma w0 z0 t zetaN).getLast? =
        some (blinding_ft t zetaN) := by
    intro w0 z0
    simp only [openingBlinders]
    rw [List.getLast?_concat]
  refine ⟨rfl, ?_, ?_⟩
  · rw [hlast w z]
    rfl
  · rw [hlast w z, hlast w' z']

end PS
